import Mathlib

/-!
Verification of the flux repository-resolution core of delorian
(pkg/repo/flux: traverse.go, delegates.go, types.go, api.go and
pkg/kustomize) against its natural-language specification.

The Go code is shallowly embedded: strings are Lean Strings, the
filesystem is a record of query functions, Go slices of pointers into
a backing slice are lists of indices into that backing list, and the
concurrent crawl is modelled as the sequential fold its single
mutual-exclusion region makes it equivalent to.  Character-level
helpers reimplement the exact semantics of the Go standard library
functions the code calls (strings.ReplaceAll, strings.TrimPrefix,
path/filepath Clean, Join, Abs, Base, Ext, Dir, ...) restricted to
the unix separator, at rune granularity.
-/

namespace Delorian

/-! ## Character-list string toolkit -/

/-- Splits a character list at every occurrence of the separator, like
strings.Split does; always returns at least one (possibly empty) segment. -/
def splitChar (sep : Char) : List Char → List (List Char)
  | [] => [[]]
  | c :: rest =>
    match splitChar sep rest with
    | [] => [[c]]
    | s :: ss => if c = sep then [] :: s :: ss else (c :: s) :: ss

/-- Joins segments with the separator, inverse of splitChar. -/
def joinChar (sep : Char) : List (List Char) → List Char
  | [] => []
  | [s] => s
  | s :: rest => s ++ sep :: joinChar sep rest

/-- Substring containment on character lists, like strings.Contains. -/
def listContainsSub : List Char → List Char → Bool
  | _, [] => true
  | [], _ :: _ => false
  | c :: rest, d :: ds => (d :: ds).isPrefixOf (c :: rest) || listContainsSub rest (d :: ds)

/-- Worker for listReplaceAll, structurally recursive on the subject
list so that it reduces definitionally: when a pattern occurrence has
just been recognized at the head, the skip counter consumes the rest of
the occurrence before scanning resumes. -/
def listReplaceAllAux (old new : List Char) : Nat → List Char → List Char
  | _ + 1, [] => []
  | skip + 1, _ :: rest => listReplaceAllAux old new skip rest
  | 0, [] => if old.isEmpty then new else []
  | 0, c :: rest =>
    if old.isEmpty then new ++ c :: listReplaceAllAux old new 0 rest
    else if old.isPrefixOf (c :: rest) then
      new ++ listReplaceAllAux old new (old.length - 1) rest
    else c :: listReplaceAllAux old new 0 rest

/-- Non-overlapping left-to-right global replacement on character lists,
the semantics of strings.ReplaceAll including the empty-pattern case
(the replacement is inserted before every rune and at the end). -/
def listReplaceAll (s old new : List Char) : List Char :=
  listReplaceAllAux old new 0 s

/-- Takes the final run of characters not equal to the separator. -/
def afterLastSlash (cs : List Char) : List Char :=
  (cs.reverse.takeWhile (fun c => c ≠ '/')).reverse

/-- Drops the final segment, keeping the final separator, as the first
component of path.Split does. -/
def upToLastSlash (cs : List Char) : List Char :=
  (cs.reverse.dropWhile (fun c => c ≠ '/')).reverse

/-- Walks a reversed character list collecting the extension suffix:
result of filepath.Ext restricted to the final slash-separated element. -/
def extFromRev (acc : List Char) : List Char → List Char
  | [] => []
  | c :: rest =>
    if c = '/' then []
    else if c = '.' then '.' :: acc
    else extFromRev (c :: acc) rest

/-! ## Go strings package functions -/

/-- Model of strings.HasPrefix. -/
def goStartsWith (s pre : String) : Bool := pre.data.isPrefixOf s.data

/-- Model of strings.HasSuffix. -/
def goEndsWith (s suf : String) : Bool := suf.data.isSuffixOf s.data

/-- Model of strings.Contains. -/
def goContains (s sub : String) : Bool := listContainsSub s.data sub.data

/-- Model of strings.TrimPrefix. -/
def goTrimPrefixStr (s pre : String) : String :=
  if pre.data.isPrefixOf s.data then String.mk (s.data.drop pre.data.length) else s

/-- Model of strings.TrimSuffix. -/
def goTrimSuffix (s suf : String) : String :=
  if suf.data.isSuffixOf s.data then
    String.mk (s.data.take (s.data.length - suf.data.length))
  else s

/-- Model of strings.TrimRight with the path-separator cutset. -/
def goTrimRightSlash (s : String) : String :=
  String.mk ((s.data.reverse.dropWhile (fun c => c = '/')).reverse)

/-- Model of strings.ToLower; delorian only lowercases ASCII file
extensions, which Char.toLower covers. -/
def goToLower (s : String) : String := String.mk (s.data.map Char.toLower)

/-- Model of strings.TrimSpace on the whitespace characters delorian
manifests can contain. -/
def goTrimSpace (s : String) : String :=
  String.mk (((s.data.dropWhile Char.isWhitespace).reverse.dropWhile Char.isWhitespace).reverse)

/-- Head segment of strings.Split(s, "/"), which is the text before the
first separator (the whole string when no separator occurs). -/
def goSplitFirst (s : String) : String := String.mk (s.data.takeWhile (fun c => c ≠ '/'))

/-- Model of strings.Split(s, "/") as full segment list. -/
def goSplitSlash (s : String) : List String := (splitChar '/' s.data).map String.mk

/-- Model of strings.ReplaceAll. -/
def goReplaceAll (s old new : String) : String :=
  String.mk (listReplaceAll s.data old.data new.data)

/-! ## Go path/filepath functions (unix separator) -/

/-- Lexical cleaning stack for goClean: processes segments left to right,
resolving single and double dots the way path.Clean does. -/
def cleanStack (rooted : Bool) (stack : List (List Char)) : List (List Char) → List (List Char)
  | [] => stack
  | seg :: rest =>
    if seg = [] || seg = ['.'] then cleanStack rooted stack rest
    else if seg = ['.', '.'] then
      match stack with
      | top :: stackTail =>
        if top = ['.', '.'] then cleanStack rooted (seg :: top :: stackTail) rest
        else cleanStack rooted stackTail rest
      | [] => if rooted then cleanStack rooted [] rest else cleanStack rooted [seg] rest
    else cleanStack rooted (seg :: stack) rest

/-- Model of filepath.Clean for the unix separator. -/
def goClean (p : String) : String :=
  if p = "" then "."
  else
    let rooted := p.data.head? = some '/'
    let segs := splitChar '/' p.data
    let kept := (cleanStack rooted [] segs).reverse
    let out := joinChar '/' kept
    if rooted then String.mk ('/' :: out)
    else if out = [] then "." else String.mk out

/-- Model of filepath.IsAbs for unix. -/
def goIsAbs (p : String) : Bool := goStartsWith p "/"

/-- Model of the two-argument filepath.Join: empty elements are dropped
and the result is cleaned; all-empty input stays empty. -/
def goJoin (a b : String) : String :=
  if a = "" && b = "" then ""
  else if a = "" then goClean b
  else if b = "" then goClean a
  else goClean (a ++ "/" ++ b)

/-- Model of filepath.Abs; the working directory of the process is an
explicit parameter (the Go code runs with the repository root as its
working directory).  filepath.Abs can only fail when Getwd fails, which
is not modelled. -/
def goAbs (cwd p : String) : String :=
  if goIsAbs p then goClean p else goJoin cwd p

/-- Model of filepath.Base for unix. -/
def goBase (p : String) : String :=
  if p = "" then "."
  else
    let cs := (p.data.reverse.dropWhile (fun c => c = '/')).reverse
    if cs = [] then "/" else String.mk (afterLastSlash cs)

/-- Model of filepath.Ext. -/
def goExt (p : String) : String := String.mk (extFromRev [] p.data.reverse)

/-- Model of filepath.Dir for unix. -/
def goDir (p : String) : String :=
  if (upToLastSlash p.data) = [] then "." else goClean (String.mk (upToLastSlash p.data))

/-- The d.Name() value fastwalk hands to callbacks with the extension
chopped off, as followFluxKustomization computes it:
filename[0 : len(filename)-len(filepath.Ext(filename))]. -/
def chopExt (s : String) : String :=
  String.mk (s.data.take (s.data.length - (goExt s).data.length))

/-! ## Substitution engine (traverse.go ParseSubstitutions)

The Go receiver iterates over a map[string]string; Go map iteration
order is unspecified, so the map is embedded as an association list and
the iteration order is the list order.  Each entry k, v performs
strings.ReplaceAll(where, "$\x7b"+k+"\x7d", v) on the accumulated string. -/

/-- Model of Model.ParseSubstitutions from traverse.go. -/
def ParseSubstitutions (where0 : String) (substitutions : List (String × String)) : String :=
  substitutions.foldl
    (fun w kv => goReplaceAll w ("$\x7b" ++ kv.1 ++ "\x7d") kv.2) where0

/-! ## Cluster forest (delegates.go)

Go cluster values are heap nodes addressed by pointer; children is a
slice of pointers that reparentClusters pads with nil entries (it
allocates the copy with make of a length rather than a capacity), so a
child slot is an Option here. -/

/-- Model of the cluster struct from types.go. -/
inductive ClusterNode where
  | mk (name : String) (fpath : String) (children : List (Option ClusterNode)) (selected : Bool)

/-- Name accessor. -/
def ClusterNode.name : ClusterNode → String
  | .mk n _ _ _ => n

/-- Directory path accessor. -/
def ClusterNode.fpath : ClusterNode → String
  | .mk _ p _ _ => p

/-- Children accessor. -/
def ClusterNode.children : ClusterNode → List (Option ClusterNode)
  | .mk _ _ cs _ => cs

/-- Selected-flag accessor. -/
def ClusterNode.selected : ClusterNode → Bool
  | .mk _ _ _ s => s

/-- Replaces the children list of a node. -/
def ClusterNode.withChildren (c : ClusterNode) (cs : List (Option ClusterNode)) : ClusterNode :=
  .mk c.name c.fpath cs c.selected

/-- The reserved following-segment names of delegates.go. -/
def commonNamespaces : List String := ["flux-system", "default"]

/-- Matches of the delegates.go cluster regular expression on the
slash-separated segments of a path.  The pattern anchors an arbitrary
non-separator run before the alternation, so a marker is any segment
ending in clusters or hub (greedy star with backtracking selects the
shortest viable suffix, preferring hub when a segment ends in both,
which cannot happen as the two literals end differently); the second
capture is the next segment, which must be non-empty, and FindAll
resumes scanning after it.  Each match is (marker literal, next
segment), mirroring match[1] and match[2]. -/
def scanSegs : List String → List (String × String)
  | [] => []
  | [_] => []
  | a :: b :: rest =>
    if b ≠ "" && goEndsWith a "hub" then ("hub", b) :: scanSegs rest
    else if b ≠ "" && goEndsWith a "clusters" then ("clusters", b) :: scanSegs rest
    else scanSegs (b :: rest)

/-- Candidate-producing half of Model.checkClusterPath from
delegates.go: trims trailing separators, rejects hidden paths and paths
under bases, trims the repository root, runs the regular expression,
and post-processes reserved names, mutating the recorded path by
TrimSuffix along the way.  Returns the candidate name list and the
recorded path. -/
def checkClusterCandidates (root path0 : String) : List String × String :=
  let path := goTrimRightSlash path0
  if goContains path "/." || goContains path "bases/" then ([], path)
  else
    let testPath := goTrimPrefixStr path (root ++ "/")
    let ms := scanSegs (goSplitSlash testPath)
    ms.foldl
      (fun acc m =>
        if commonNamespaces.contains m.2 then (acc.1 ++ [m.1], goTrimSuffix acc.2 m.2)
        else (acc.1 ++ [m.2], acc.2))
      ([], path)

mutual

/-- Model of cluster.Add from delegates.go: descend along the entry
chain, recursing into the first child whose name matches the next
entry, creating the child when absent.  The Go method mutates through
pointers and its return value is discarded by checkClusterPath, so the
model returns the updated node. -/
def clusterAdd (c : ClusterNode) : List String → String → ClusterNode
  | [], _ => c
  | e0 :: es, path =>
    if e0 = c.name then
      match es with
      | [] => c
      | e1 :: esTail =>
        match clusterAddChildren c.children e1 (e1 :: esTail) path with
        | (cs, true) => c.withChildren cs
        | (_, false) =>
          c.withChildren (c.children ++ [some (.mk e1 path [] false)])
    else c
termination_by es _ => (es.length, 0)
decreasing_by all_goals (simp only [List.length_cons, Prod.lex_def]; omega)

/-- Helper for clusterAdd: updates the first non-nil child named
target by recursing into it; the Bool reports whether one was found.
A nil child pointer would make the Go loop panic; crawl-built forests
contain none, and the model skips them. -/
def clusterAddChildren (cs : List (Option ClusterNode)) (target : String)
    (es : List String) (path : String) : List (Option ClusterNode) × Bool :=
  match cs with
  | [] => ([], false)
  | none :: rest =>
    match clusterAddChildren rest target es path with
    | (rest2, found) => (none :: rest2, found)
  | some d :: rest =>
    if d.name = target then (some (clusterAdd d es path) :: rest, true)
    else
      match clusterAddChildren rest target es path with
      | (rest2, found) => (some d :: rest2, found)
termination_by (es.length, cs.length + 1)

end

/-- Model of Model.checkClusterPath including the forest insertion: every
existing root whose name equals the first candidate receives an Add, and
a new root is appended when none matched. -/
def checkClusterPath (root : String) (cls : List ClusterNode) (path : String) :
    List ClusterNode :=
  match checkClusterCandidates root path with
  | ([], _) => cls
  | (c0 :: crest, rpath) =>
    let found := cls.any (fun c => c.name = c0)
    let cls2 := cls.map (fun c => if c.name = c0 then clusterAdd c (c0 :: crest) rpath else c)
    if found then cls2 else cls2 ++ [ClusterNode.mk c0 rpath [] false]

/-! ## Cluster reparenting (delegates.go reparentClusters)

The pass runs over the root slice with nested index loops, nils out
absorbed roots, rebuilds the slice without nils and stably sorts it by
name.  The file-existence check os.Stat(filepath.Join(root[i].filepath,
root[j].name) + ".yaml") is abstracted as a Bool-valued predicate on
the joined path. -/

/-- The copy reparentClusters builds of an absorbed root: make with a
length (not a capacity) prepends nil padding to the copied children,
and the selected flag is not carried over. -/
def absorbCopy (cj : ClusterNode) : ClusterNode :=
  .mk cj.name cj.fpath (List.replicate cj.children.length none ++ cj.children) false

/-- One inner-loop iteration of reparentClusters at outer index i and
inner index j. -/
def stepAbsorb (statOK : String → Bool) (i : Nat) (os : List (Option ClusterNode))
    (j : Nat) : List (Option ClusterNode) :=
  if j = i then os
  else
    match os.getD j none, os.getD i none with
    | some cj, some ci =>
      if statOK (goJoin ci.fpath cj.name ++ ".yaml") then
        let osi := os.set i (some (ci.withChildren (ci.children ++ [some (absorbCopy cj)])))
        osi.set j none
      else os
    | _, _ => os

/-- The inner j-loop of reparentClusters for a fixed outer index. -/
def innerAbsorb (statOK : String → Bool) (i : Nat) (os : List (Option ClusterNode)) :
    List (Option ClusterNode) :=
  (List.range os.length).foldl (stepAbsorb statOK i) os

/-- One outer-loop iteration of reparentClusters: a nil outer entry is
skipped, otherwise the inner loop runs for it. -/
def outerStep (statOK : String → Bool) (a : List (Option ClusterNode)) (i : Nat) :
    List (Option ClusterNode) :=
  match a.getD i none with
  | none => a
  | some _ => innerAbsorb statOK i a

/-- The outer i-loop of reparentClusters. -/
def outerAbsorb (statOK : String → Bool) (os : List (Option ClusterNode)) :
    List (Option ClusterNode) :=
  (List.range os.length).foldl (outerStep statOK) os

/-- Lexicographic strict comparison of character lists: the semantics
of the Go built-in string less-than at rune granularity (Go compares
bytes; the two agree on ASCII names). -/
def listLtChars : List Char → List Char → Bool
  | [], [] => false
  | [], _ :: _ => true
  | _ :: _, [] => false
  | a :: as, b :: bs => if a < b then true else if b < a then false else listLtChars as bs

/-- Go string less-than, used by the sort comparators. -/
def goStringLt (a b : String) : Bool := listLtChars a.data b.data

/-- Stable insertion into a sorted list; elements equal under the
comparison keep the inserted element first, matching the stability of
sort.SliceStable for elements originally to the left. -/
def stableInsert (less : α → α → Bool) (x : α) : List α → List α
  | [] => [x]
  | y :: ys => if less y x then y :: stableInsert less x ys else x :: y :: ys

/-- Stable sort as iterated stable insertion; extensionally the
behaviour of sort.SliceStable for the given strict-order predicate. -/
def stableSort (less : α → α → Bool) (l : List α) : List α :=
  l.foldr (stableInsert less) []

/-- The name comparison of the final sort.SliceStable in
reparentClusters. -/
def lessClusterName (a b : ClusterNode) : Bool := goStringLt a.name b.name

/-- Model of Model.reparentClusters from delegates.go. -/
def reparentClusters (statOK : String → Bool) (roots : List ClusterNode) :
    List ClusterNode :=
  let final := outerAbsorb statOK (roots.map some)
  stableSort lessClusterName (final.filterMap id)

/-- Two roots that cannot absorb one another in either direction: the
directory of neither contains a file named after the other.  The
reparenting pass leaves a forest alone exactly when this holds
pairwise. -/
def noAbsorbPair (statOK : String → Bool) (a b : ClusterNode) : Prop :=
  statOK (goJoin a.fpath b.name ++ ".yaml") = false ∧
  statOK (goJoin b.fpath a.name ++ ".yaml") = false

/-! ## Data model (types.go)

Go slices of pointers into the two backing slices m.kustomizations and
m.sources are embedded as lists of indices into the corresponding
backing lists; a pointer to slot j stays attached to slot j when the
final sort permutes slice contents, which the index embedding
reproduces.  The Go field Namespace is called nspace here because
namespace is a Lean keyword. -/

/-- Classification enum FluxFileType from types.go. -/
inductive FluxFileType where
  | Base
  | Patch
  | Complete
deriving DecidableEq, Repr

/-- shortMeta from types.go. -/
structure shortMeta where
  name : String := ""
  nspace : Option String := none
deriving DecidableEq, Repr

/-- The sourceRef value of shortSpec; Go reuses the shortSource struct
for it, of which only Kind, Name and Namespace are decoded. -/
structure SourceRef where
  kind : String := ""
  name : String := ""
  nspace : Option String := none
deriving DecidableEq, Repr

/-- shortSpec from types.go; the postBuild wrapper carries only the
substitute map, embedded as an association list because Go map
iteration order is unspecified. -/
structure shortSpec where
  path : Option String := none
  source : Option SourceRef := none
  postBuild : Option (List (String × String)) := none
deriving DecidableEq, Repr

/-- The YAML-decoded (exported) fields of shortApi. -/
structure ApiFields where
  apiVersion : String := ""
  kind : String := ""
  metadata : shortMeta := {}
  spec : shortSpec := {}
deriving DecidableEq, Repr

/-- One document of a multi-document YAML stream as the decoder yields
it to parseYaml: either a decode failure, which stops the loop, or the
decoded field set.  The decoder is an external collaborator, so its
per-document output is the model input. -/
inductive YDoc where
  | malformed
  | ok (d : ApiFields)
deriving DecidableEq, Repr

/-- shortApi from types.go: the decoded fields plus the internal
bookkeeping fields filled by the passes.  The random 8-character uuid
id is not modelled and stays empty. -/
structure shortApi extends ApiFields where
  id : String := ""
  children : List Nat := []
  filepath : String := ""
  ftype : FluxFileType := FluxFileType.Base
  kustomize : String := ""
  parent : Option Nat := none
  source : Option Nat := none
  root : String := ""
deriving DecidableEq, Repr

/-- shortSource from types.go (shortMeta is embedded inline in Go). -/
structure shortSource where
  name : String := ""
  nspace : Option String := none
  kind : String := ""
  children : List Nat := []
  filepath : String := ""
  id : String := ""
  parent : Option Nat := none
deriving DecidableEq, Repr

/-- GetName for a manifest (api.go): trims whitespace. -/
def shortApi.GetName (s : shortApi) : String := goTrimSpace s.metadata.name

/-- GetNamespace for a manifest (api.go): empty string for nil, trimmed. -/
def shortApi.GetNamespace (s : shortApi) : String :=
  match s.metadata.nspace with
  | none => ""
  | some n => goTrimSpace n

/-- GetSourceName (api.go); Go dereferences s.Spec.Source, which its
callers have checked is non-nil. -/
def shortApi.GetSourceName (s : shortApi) : String :=
  match s.spec.source with
  | some sr => sr.name
  | none => ""

/-- GetSourceNamespace (api.go): the explicit sourceRef namespace if
present, else the manifest namespace. -/
def shortApi.GetSourceNamespace (s : shortApi) : String :=
  match s.spec.source with
  | some sr =>
    match sr.nspace with
    | some n => n
    | none => s.GetNamespace
  | none => s.GetNamespace

/-- GetAbsoluteSpecPath (api.go); empty when no spec path is declared.
The process working directory used by filepath.Abs is explicit. -/
def shortApi.GetAbsoluteSpecPath (cwd : String) (s : shortApi) : String :=
  match s.spec.path with
  | none => ""
  | some sp => goAbs cwd (goJoin s.root sp)

/-- GetName for a source (types.go): no trimming. -/
def shortSource.GetName (s : shortSource) : String := s.name

/-- GetNamespace for a source (types.go): empty string for nil. -/
def shortSource.GetNamespace (s : shortSource) : String := s.nspace.getD ""

/-! ## Filesystem and walk model

The filesystem is a record of the query functions the code performs.
A file has one byte content but is decoded through different lenses
(a shortApi stream, a sigs Kustomization stream, a single sigs
Kustomization), so each lens is a field.  A read that fails (including
reading a directory as a file, which fails with EISDIR) is none.
fastwalk hands each callback a path, an error flag and the direntry
type. -/

/-- The resources/patches slice of sigs.k8s.io types.Kustomization that
GetKustomization and followKustomization consume. -/
structure SigsPatch where
  path : String := ""
deriving DecidableEq, Repr

/-- The decoded fields of a sigs Kustomization layering file. -/
structure SigsKust where
  resources : List String := []
  patches : List SigsPatch := []
deriving DecidableEq, Repr

/-- One document of the layering-file stream decoded by
followKustomization. -/
inductive SigsDoc where
  | malformed
  | ok (k : SigsKust)
deriving DecidableEq, Repr

/-- Direntry type as fastwalk reports it. -/
inductive DType where
  | dir
  | regular
  | other
deriving DecidableEq, Repr

/-- One callback invocation of a fastwalk traversal. -/
structure WalkEntry where
  path : String := ""
  werr : Bool := false
  dtype : DType := DType.regular
deriving DecidableEq, Repr

/-- The filesystem as the traverse code observes it. -/
structure GoFS where
  statIsDir : String → Option Bool
  readDocs : String → Option (List YDoc)
  readSigs : String → Option SigsKust
  readSigsDocs : String → Option (List SigsDoc)
  walk : String → List WalkEntry

/-- The shared mutable state of Model that the resolution pipeline
fills: the three ordered stores. -/
structure MState where
  kustomizations : List shortApi := []
  sources : List shortSource := []
  clusters : List ClusterNode := []

/-- Updates the manifest at a slot, when in range. -/
def updateKust (st : MState) (i : Nat) (f : shortApi → shortApi) : MState :=
  match st.kustomizations.get? i with
  | some k => { st with kustomizations := st.kustomizations.set i (f k) }
  | none => st

/-- Updates the source at a slot, when in range. -/
def updateSrc (st : MState) (i : Nat) (f : shortSource → shortSource) : MState :=
  match st.sources.get? i with
  | some s => { st with sources := st.sources.set i (f s) }
  | none => st

/-! ## parseYaml and the crawl (traverse.go walk, parseYamlFromFile,
parseYaml) -/

/-- The kustomization api group constant of traverse.go. -/
def kustomizationApi : String := "kustomize.toolkit.fluxcd.io"

/-- The source api group constant of traverse.go. -/
def sourceApi : String := "source.toolkit.fluxcd.io"

/-- Builds the manifest record parseYaml appends for a recognized
kustomization document: defaults the sourceRef namespace from the
document namespace, trims the root prefix off the stored path and
starts the classification at Base. -/
def mkKustRecord (d : ApiFields) (root path : String) : shortApi :=
  let spec :=
    match d.spec.source with
    | some sr =>
      if sr.nspace = none then { d.spec with source := some { sr with nspace := d.metadata.nspace } }
      else d.spec
    | none => d.spec
  { toApiFields := { d with spec := spec }
    id := ""
    children := []
    filepath := goTrimPrefixStr path (root ++ "/")
    ftype := FluxFileType.Base
    kustomize := ""
    parent := none
    source := none
    root := root }

/-- Builds the source record parseYaml appends for a recognized source
document; note that its stored path is the full walk path, with no
root trimming. -/
def mkSourceRecord (d : ApiFields) (path : String) : shortSource :=
  { name := d.metadata.name
    nspace := d.metadata.nspace
    kind := d.kind
    children := []
    filepath := path
    id := ""
    parent := none }

/-- Model of parseYaml from traverse.go: decode documents until the
first failure, dispatch on the apiVersion group before the slash, and
discard unrecognized documents. -/
def parseYaml (docs : List YDoc) (root path : String) : List shortApi × List shortSource :=
  match docs with
  | [] => ([], [])
  | YDoc.malformed :: _ => ([], [])
  | YDoc.ok d :: rest =>
    let (ks, ss) := parseYaml rest root path
    let api := goSplitFirst d.apiVersion
    if api = kustomizationApi then (mkKustRecord d root path :: ks, ss)
    else if api = sourceApi then (ks, mkSourceRecord d path :: ss)
    else (ks, ss)

/-- Model of parseYamlFromFile: a failed read yields nothing. -/
def parseYamlFromFile (fs : GoFS) (root path : String) : List shortApi × List shortSource :=
  match fs.readDocs (goClean path) with
  | none => ([], [])
  | some docs => parseYaml docs root path

/-- One rootFn callback of the crawl walk; none is a propagated error
that aborts the whole walk.  A stat error runs checkClusterPath and
then returns the error, aborting; the aborted state is unobservable
because walk() discards it. -/
def crawlStep (fs : GoFS) (root : String) (acc : Option MState) (e : WalkEntry) :
    Option MState :=
  match acc with
  | none => none
  | some st =>
    if e.werr then none
    else
      match fs.statIsDir e.path with
      | none => none
      | some true => some { st with clusters := checkClusterPath root st.clusters e.path }
      | some false =>
        let ext := goToLower (goExt (goBase e.path))
        if ext = ".yaml" || ext = ".yml" then
          let (ks, ss) := parseYamlFromFile fs root e.path
          some { st with
                  kustomizations := st.kustomizations ++ ks
                  sources := st.sources ++ ss }
        else some st

/-- The crawl over a list of walk callbacks: the concurrent workers
serialize every store append through one mutex, so the crawl is
equivalent to this sequential fold. -/
def crawl (fs : GoFS) (root : String) (entries : List WalkEntry) : Option MState :=
  entries.foldl (crawlStep fs root) (some {})

/-! ## Layering lookup and linking (kustomize.GetKustomization,
traverse.go followFluxKustomization, kustomize/followKustomization) -/

/-- Model of kustomize.GetKustomization: look for kustomization.yaml
then kustomization.yml next to the manifest; a read or unmarshal
failure returns the same empty result as a missing file. -/
def GetKustomization (fs : GoFS) (path : String) : String × Option SigsKust :=
  let dirname := goDir path
  let p1 := goJoin dirname "kustomization.yaml"
  let p2 := goJoin dirname "kustomization.yml"
  if (fs.statIsDir p1).isSome then
    match fs.readSigs p1 with
    | none => ("", none)
    | some k => (p1, some k)
  else if (fs.statIsDir p2).isSome then
    match fs.readSigs p2 with
    | none => ("", none)
    | some k => (p2, some k)
  else ("", none)

/-- The classification branch at the top of followFluxKustomization:
Complete when there is no decoded layering file or the manifest file
name is a declared resource; otherwise Patch when it is a declared
patch target; otherwise the classification is left as it was. -/
def classifyFtype (kust : Option SigsKust) (base : String) (old : FluxFileType) :
    FluxFileType :=
  match kust with
  | none => FluxFileType.Complete
  | some kk =>
    if kk.resources.contains base then FluxFileType.Complete
    else if kk.patches.any (fun p => p.path = base) then FluxFileType.Patch
    else old

/-- The path followFluxKustomization classifies a manifest under: its
stored path, joined under the root when it does not already carry the
root prefix. -/
def linkPath (root : String) (k : shortApi) : String :=
  if goStartsWith k.filepath root then k.filepath else goJoin root k.filepath

/-- The classification followFluxKustomization assigns to one manifest,
as a function of the filesystem and the manifest record. -/
def manifestClassification (fs : GoFS) (root : String) (k : shortApi) : FluxFileType :=
  classifyFtype (GetKustomization fs (linkPath root k)).2 (goBase (linkPath root k)) k.ftype

/-- The two matching loops at the end of a followKustomization resource
iteration: every manifest whose stored path equals the resolved path is
reparented and appended to the children of the current manifest, and
every source whose stored path equals it gets its parent set and
becomes the current manifest source. -/
def fkBindAt (index : Nat) (rp : String) (st : MState) : MState :=
  let st1 :=
    (List.range st.kustomizations.length).foldl
      (fun s j =>
        match s.kustomizations.get? j with
        | some v =>
          if v.filepath = rp then
            let s2 := updateKust s j (fun k => { k with parent := some index })
            updateKust s2 index (fun k => { k with children := k.children ++ [j] })
          else s
        | none => s)
      st
  (List.range st1.sources.length).foldl
    (fun s t =>
      match s.sources.get? t with
      | some v =>
        if v.filepath = rp then
          let s2 := updateSrc s t (fun x => { x with parent := some index })
          updateKust s2 index (fun k => { k with source := some t })
        else s
      | none => s)
    st1

/-- The resource loop of followKustomization, with the recursive call
into directories supplied as a continuation.  The Bool is the early
return the Go code takes after recursing into a directory resource,
which abandons the remaining resources and documents.  A stat error
falls through to the matching loops, exactly as the err branch of the
Go conditional does; filepath.Abs never fails in the model. -/
def fkRes (fs : GoFS) (cwd : String) (index : Nat) (path : String)
    (recurse : String → MState → MState) :
    List String → MState → MState × Bool
  | [], st => (st, false)
  | r :: rs, st =>
    let np := goJoin path r
    let rp := goAbs cwd np
    match fs.statIsDir rp with
    | some true => (recurse rp st, true)
    | _ => fkRes fs cwd index path recurse rs (fkBindAt index rp st)

/-- The document loop of followKustomization: decode layering documents
until the first failure, processing the resources of each; an early
return from the resource loop ends the whole call. -/
def fkDocs (fs : GoFS) (cwd : String) (index : Nat) (path : String)
    (recurse : String → MState → MState) :
    List SigsDoc → MState → MState
  | [], st => st
  | SigsDoc.malformed :: _, st => st
  | SigsDoc.ok k :: rest, st =>
    match fkRes fs cwd index path recurse k.resources st with
    | (st2, true) => st2
    | (st2, false) => fkDocs fs cwd index path recurse rest st2

/-- Model of Model.followKustomization: read the layering file (reading
a directory path fails and returns unchanged), then run the document
loop; recursion into directory resources is bounded by fuel, and the
theorems quantify over it. -/
def followKustomization (fs : GoFS) (cwd : String) :
    Nat → Nat → String → MState → MState
  | 0, _, _, st => st
  | fuel + 1, index, path, st =>
    match fs.readSigsDocs (goClean path) with
    | none => st
    | some docs =>
      fkDocs fs cwd index path (followKustomization fs cwd fuel index) docs st

/-- The substitution applied to a child manifest at binding time when
the parent declares a postBuild substitute map: the child name and the
root-joined child spec path are rewritten.  When the child has no spec
path the Go code dereferences a nil pointer; that branch is modelled as
the identity and is unreachable in the runs considered here. -/
def substituteChild (root : String) (pb : List (String × String)) (k : shortApi) : shortApi :=
  let k2 := { k with metadata := { k.metadata with name := ParseSubstitutions k.metadata.name pb } }
  match k2.spec.path with
  | some sp =>
    { k2 with spec := { k2.spec with path := some (ParseSubstitutions (goJoin root sp) pb) } }
  | none => k2

/-- One pathFn callback inside followFluxKustomization.  A propagated
walk error aborts the walk.  Any entry whose extension-stripped name is
kustomization is followed as a layering file; otherwise a regular file
is matched against the manifest store (first match only, then the
callback returns) and, failing that, against the source store. -/
def pathFnStep (fs : GoFS) (cwd root : String) (fuel index : Nat)
    (acc : MState × Bool) (e : WalkEntry) : MState × Bool :=
  match acc with
  | (st, true) => (st, true)
  | (st, false) =>
    if e.werr then (st, true)
    else
      let fname := chopExt (goBase e.path)
      if fname = "kustomization" then
        (followKustomization fs cwd fuel index e.path st, false)
      else if e.dtype = DType.regular then
        match st.kustomizations.findIdx? (fun v => v.filepath = e.path) with
        | some i =>
          let st2 := updateKust st i (fun k => { k with parent := some index })
          let st3 := updateKust st2 index (fun k => { k with children := k.children ++ [i] })
          let st4 :=
            match (st3.kustomizations.get? index).bind (fun k => k.spec.postBuild) with
            | some pb => updateKust st3 i (substituteChild root pb)
            | none => st3
          (st4, false)
        | none =>
          ((List.range st.sources.length).foldl
            (fun s t =>
              match s.sources.get? t with
              | some v =>
                if v.filepath = e.path then
                  updateSrc s t (fun x => { x with parent := some index })
                else s
              | none => s)
            st, false)
      else (st, false)

/-- Model of Model.followFluxKustomization: classify the manifest
against its sibling layering file, then, when it declares a spec path,
walk the absolute spec path directory with pathFn.  The Bool reports
the error walk() collects into a toast without stopping the loop. -/
def followFluxKustomization (fs : GoFS) (cwd root : String) (fuel index : Nat)
    (st : MState) : MState × Bool :=
  match st.kustomizations.get? index with
  | none => (st, false)
  | some k0 =>
    let path := linkPath root k0
    let fpKust := GetKustomization fs path
    let st1 := updateKust st index (fun k => { k with kustomize := fpKust.1 })
    let st2 := updateKust st1 index
      (fun k => { k with ftype := classifyFtype fpKust.2 (goBase path) k.ftype })
    match k0.spec.path with
    | none => (st2, false)
    | some _ =>
      let kpath := k0.GetAbsoluteSpecPath cwd
      (fs.walk kpath).foldl (pathFnStep fs cwd root fuel index) (st2, false)

/-- Model of Model.setSource: scan every source; on a kind, name and
namespace match, append the manifest to the source children unless a
child with the same metadata name and namespace as the sourceRef name
and namespace is already present, and point the manifest source at the
slot.  There is no break, so later matching sources are processed too.
The in-loop nil check of Spec.Source is hoisted: the field is never
mutated inside the loop. -/
def setSource (st : MState) (index : Nat) : MState :=
  match st.kustomizations.get? index with
  | none => st
  | some k0 =>
    match k0.spec.source with
    | none => st
    | some _ =>
      (List.range st.sources.length).foldl
        (fun s t =>
          match s.sources.get? t, s.kustomizations.get? index with
          | some src, some kcur =>
            if (match kcur.spec.source with | some sr => sr.kind | none => "") = src.kind then
              let kName := kcur.GetSourceName
              let kNs := kcur.GetSourceNamespace
              if kName = src.GetName && kNs = src.GetNamespace then
                let has := src.children.any
                  (fun c =>
                    match s.kustomizations.get? c with
                    | some m => m.GetName = kName && m.GetNamespace = kNs
                    | none => false)
                if has then s
                else
                  let s2 := updateSrc s t (fun x => { x with children := x.children ++ [index] })
                  updateKust s2 index (fun k => { k with source := some t })
              else s
            else s
          | _, _ => s)
        st

/-- One iteration of the linking loop in walk(): reset the children
slice, follow the flux kustomization, then bind its source. -/
def linkStep (fs : GoFS) (cwd root : String) (fuel : Nat)
    (acc : MState × Bool) (i : Nat) : MState × Bool :=
  let st0 := updateKust acc.1 i (fun k => { k with children := [] })
  let (st1, err) := followFluxKustomization fs cwd root fuel i st0
  (setSource st1 i, acc.2 && !err)

/-- The full linking loop of walk(), in crawl discovery order.  The
Bool is the ready flag walk() passes to ModelReadyCmd. -/
def linkAll (fs : GoFS) (cwd root : String) (fuel : Nat) (st : MState) : MState × Bool :=
  (List.range st.kustomizations.length).foldl (linkStep fs cwd root fuel) (st, true)

/-- The comparator of the final stable sort of the manifest list:
descending child count, then ascending trimmed name. -/
def lessKust (a b : shortApi) : Bool :=
  if a.children.length = b.children.length then goStringLt a.GetName b.GetName
  else decide (b.children.length < a.children.length)

/-- Outcome of one resolution run of Model.walk. -/
inductive Outcome where
  | walkError
  | fatal
  | ready (st : MState) (fatalFree : Bool)

/-- Model of Model.walk over an explicit list of crawl callbacks: crawl,
the single fatal zero-manifest check, the linking loop, cluster
reparenting, and the final stable sort. -/
def runPipelineEntries (fs : GoFS) (root : String) (fuel : Nat)
    (entries : List WalkEntry) : Outcome :=
  match crawl fs root entries with
  | none => Outcome.walkError
  | some cst =>
    if cst.kustomizations.isEmpty then Outcome.fatal
    else
      let (st1, ready) := linkAll fs root root fuel cst
      let st2 := { st1 with
        clusters := reparentClusters (fun p => (fs.statIsDir p).isSome) st1.clusters }
      let st3 := { st2 with kustomizations := stableSort lessKust st2.kustomizations }
      Outcome.ready st3 ready

/-- Model of Model.walk: the crawl callbacks are the fastwalk traversal
of the repository root, and the working directory for filepath.Abs is
the root itself, because manager.New passes os.Getwd as the root. -/
def runPipeline (fs : GoFS) (root : String) (fuel : Nat) : Outcome :=
  runPipelineEntries fs root fuel (fs.walk root)

/-- The manifest store of a ready outcome. -/
def readyKusts : Outcome → List shortApi
  | Outcome.ready st _ => st.kustomizations
  | _ => []

/-- The state of a ready outcome. -/
def readyState : Outcome → MState
  | Outcome.ready st _ => st
  | _ => {}

/-- The child edge relation over manifest slots after a run: j is a
child of i. -/
def childEdge (st : MState) (i j : Nat) : Prop :=
  ∃ k, st.kustomizations.get? i = some k ∧ j ∈ k.children

/-- The linking-phase view of the manifest store: the stored path and
the children of every slot, the two fields the binding loops match on
and mutate. -/
def linkView (st : MState) : List (String × List Nat) :=
  st.kustomizations.map (fun k => (k.filepath, k.children))

/-- Resetting the children component of one slot of a link view, the
effect of the children reset at the top of a linking iteration. -/
def resetAt (i : Nat) (v : List (String × List Nat)) : List (String × List Nat) :=
  match v.get? i with
  | some p => v.set i (p.1, [])
  | none => v

/-- Every stored manifest path is root-relative (carries no leading
separator), the shape the crawl gives the store by trimming the
absolute root prefix off every walked file path. -/
def relPaths (st : MState) : Prop :=
  ∀ k ∈ st.kustomizations, goStartsWith k.filepath "/" = false

/-! ## Concrete fixtures used by the evaluation theorems and witnesses -/

/-- A repository in the shape of the end-to-end example of the spec:
one flux kustomization under clusters-like layout pointing at a build
directory whose layering file declares a sibling manifest. -/
def fsC1 : GoFS :=
  { statIsDir := fun p =>
      if p = "/r" || p = "/r/c" || p = "/r/apps" then some true
      else if p = "/r/c/apps.yaml" || p = "/r/apps/app.yaml"
              || p = "/r/apps/kustomization.yaml" then some false
      else none
    readDocs := fun p =>
      if p = "/r/c/apps.yaml" then
        some [YDoc.ok
          { apiVersion := "kustomize.toolkit.fluxcd.io/v1"
            kind := "Kustomization"
            metadata := { name := "apps", nspace := some "flux-system" }
            spec := { path := some "apps", postBuild := some [("ENV", "prod")] } }]
      else if p = "/r/apps/app.yaml" then
        some [YDoc.ok
          { apiVersion := "kustomize.toolkit.fluxcd.io/v1"
            kind := "Kustomization"
            metadata := { name := "app", nspace := some "default" } }]
      else if p = "/r/apps/kustomization.yaml" then some [YDoc.ok {}]
      else none
    readSigs := fun p =>
      if p = "/r/apps/kustomization.yaml" then some { resources := ["app.yaml"] } else none
    readSigsDocs := fun p =>
      if p = "/r/apps/kustomization.yaml" then
        some [SigsDoc.ok { resources := ["app.yaml"] }]
      else none
    walk := fun r =>
      if r = "/r" then
        [{ path := "/r", dtype := DType.dir },
         { path := "/r/c", dtype := DType.dir },
         { path := "/r/c/apps.yaml", dtype := DType.regular },
         { path := "/r/apps", dtype := DType.dir },
         { path := "/r/apps/app.yaml", dtype := DType.regular },
         { path := "/r/apps/kustomization.yaml", dtype := DType.regular }]
      else if r = "/r/apps" then
        [{ path := "/r/apps", dtype := DType.dir },
         { path := "/r/apps/app.yaml", dtype := DType.regular },
         { path := "/r/apps/kustomization.yaml", dtype := DType.regular }]
      else [] }

/-- A directory whose sibling layering file exists but cannot be read
or parsed. -/
def fsC2 : GoFS :=
  { statIsDir := fun p => if p = "/r/d/kustomization.yaml" then some false else none
    readDocs := fun _ => none
    readSigs := fun _ => none
    readSigsDocs := fun _ => none
    walk := fun _ => [] }

/-- A manifest living next to the unparsable layering file of fsC2. -/
def kustC2 : shortApi := { filepath := "d/m.yaml", root := "/r" }

/-- A manifest whose metadata name differs from its sourceRef name, the
situation in which the setSource duplicate check cannot fire. -/
def kustC3 : shortApi :=
  { metadata := { name := "apps", nspace := some "ns" }
    spec := { source := some { kind := "GitRepository", name := "repo", nspace := some "ns" } } }

/-- The source record kustC3 references. -/
def srcC3 : shortSource :=
  { name := "repo", nspace := some "ns", kind := "GitRepository", filepath := "/r/s.yaml" }

/-- One manifest, one matching source. -/
def stC3 : MState := { kustomizations := [kustC3], sources := [srcC3] }

/-- One manifest, two sources with identical kind, name and namespace. -/
def stC3b : MState := { kustomizations := [kustC3], sources := [srcC3, srcC3] }

/-- Two layering files whose resources point at the directory of the
other: a resource-level directory cycle. -/
def fsC8 : GoFS :=
  { statIsDir := fun p =>
      if p = "/r/A" || p = "/r/B" then some true
      else if p = "/r/A/kustomization.yaml" || p = "/r/B/kustomization.yaml" then some false
      else none
    readDocs := fun _ => none
    readSigs := fun _ => none
    readSigsDocs := fun p =>
      if p = "/r/A/kustomization.yaml" then some [SigsDoc.ok { resources := ["../../B"] }]
      else if p = "/r/B/kustomization.yaml" then some [SigsDoc.ok { resources := ["../../A"] }]
      else none
    walk := fun _ => [] }

/-- A filesystem with one readable manifest file and one unreadable
yaml file, to instantiate the lenient-skip behaviour. -/
def fsC9 : GoFS :=
  { statIsDir := fun p =>
      if p = "/q/a.yaml" || p = "/q/bad.yaml" then some false else none
    readDocs := fun p =>
      if p = "/q/a.yaml" then
        some [YDoc.ok
          { apiVersion := "kustomize.toolkit.fluxcd.io/v1"
            kind := "Kustomization"
            metadata := { name := "a" } }]
      else none
    readSigs := fun _ => none
    readSigsDocs := fun _ => none
    walk := fun _ => [] }

/-- The readable entry of fsC9. -/
def entC9good : WalkEntry := { path := "/q/a.yaml", dtype := DType.regular }

/-- The unreadable entry of fsC9. -/
def entC9bad : WalkEntry := { path := "/q/bad.yaml", dtype := DType.regular }

/-- A recognized kustomization document for the parse theorems. -/
def docC10k : ApiFields :=
  { apiVersion := "kustomize.toolkit.fluxcd.io/v1"
    kind := "Kustomization"
    metadata := { name := "k" } }

/-- A recognized source document for the parse theorems. -/
def docC10s : ApiFields :=
  { apiVersion := "source.toolkit.fluxcd.io/v1"
    kind := "GitRepository"
    metadata := { name := "s" } }

/-! # Theorems -/

/-! ## Substitution engine lemmas -/

/-- Replacing a pattern that does not occur leaves the list unchanged. -/
theorem listReplaceAll_no_occurrence (s old new : List Char) (hold : old ≠ [])
    (h : listContainsSub s old = false) : listReplaceAll s old new = s := by
  induction s with
  | nil =>
    unfold listReplaceAll listReplaceAllAux
    simp [List.isEmpty_iff, hold]
  | cons c rest ih =>
    obtain ⟨d, ds, rfl⟩ : ∃ d ds, old = d :: ds := by
      cases old with
      | nil => exact absurd rfl hold
      | cons d ds => exact ⟨d, ds, rfl⟩
    rw [listContainsSub] at h
    simp only [Bool.or_eq_false_iff] at h
    unfold listReplaceAll listReplaceAllAux
    simp only [List.isEmpty_cons, Bool.false_eq_true, if_false, h.1]
    exact congrArg (c :: ·) (ih h.2)

/-- String-level version of listReplaceAll_no_occurrence. -/
theorem goReplaceAll_no_occurrence (s old new : String) (hold : old ≠ "")
    (h : goContains s old = false) : goReplaceAll s old new = s := by
  have hdata : old.data ≠ [] := by
    intro hh
    apply hold
    apply String.ext
    simpa using hh
  cases s with
  | mk cs =>
    exact congrArg String.mk (listReplaceAll_no_occurrence cs old.data new.data hdata h)

/-- A string containing no token of any map entry passes through
ParseSubstitutions unchanged. -/
theorem ParseSubstitutions_no_tokens (s : String) (ps : List (String × String))
    (h : ∀ p ∈ ps, goContains s ("$\x7b" ++ p.1 ++ "\x7d") = false) :
    ParseSubstitutions s ps = s := by
  induction ps with
  | nil => rfl
  | cons p rest ih =>
    have hne : ("$\x7b" ++ p.1 ++ "\x7d") ≠ "" := by
      intro hh
      have := congrArg String.data hh
      simp [String.data_append] at this
    have hs : goReplaceAll s ("$\x7b" ++ p.1 ++ "\x7d") p.2 = s :=
      goReplaceAll_no_occurrence s _ p.2 hne (h p (List.mem_cons_self p rest))
    calc ParseSubstitutions s (p :: rest)
        = ParseSubstitutions (goReplaceAll s ("$\x7b" ++ p.1 ++ "\x7d") p.2) rest := rfl
      _ = ParseSubstitutions s rest := by rw [hs]
      _ = s := ih (fun q hq => h q (List.mem_cons_of_mem p hq))

/-! ## C6 -/

/-- C6 counterexample: the claim says each occurrence of a mapped token
is replaced by its mapped value and no nested expansion occurs, which
predicts that substituting the map a maps-to the-token-b, b maps-to x
into the token a yields the literal token b.  The code folds
strings.ReplaceAll over the entries in sequence, so the later entry b
rewrites the value the earlier entry inserted, producing x. -/
theorem c6_counterexample :
    ParseSubstitutions "$\x7ba\x7d" [("a", "$\x7bb\x7d"), ("b", "x")] = "x" ∧
    ("x" : String) ≠ "$\x7bb\x7d" := ⟨by decide, by decide⟩

/-- C6 theorem (amended): ParseSubstitutions applies each map entry in
sequence by global literal replacement of its token, so a string
containing no mapped token is returned unchanged, unmapped tokens pass
through (substitute of a-b tokens under the single mapping a maps-to x
yields x dash token-b), and a mapped value that itself contains a later
entry token is expanded by that later entry (cross-entry nested
expansion). -/
theorem c6_amended :
    (∀ (s : String) (ps : List (String × String)),
        (∀ p ∈ ps, goContains s ("$\x7b" ++ p.1 ++ "\x7d") = false) →
        ParseSubstitutions s ps = s) ∧
    ParseSubstitutions "$\x7ba\x7d-$\x7bb\x7d" [("a", "x")] = "x-$\x7bb\x7d" ∧
    ParseSubstitutions "$\x7ba\x7d" [("a", "$\x7bb\x7d"), ("b", "x")] = "x" :=
  ⟨ParseSubstitutions_no_tokens, by decide, by decide⟩

/-- C6 witness: the no-token hypothesis discharged on a concrete string
and map. -/
theorem c6_amended_witness :
    (∀ p ∈ [("k", "v")], goContains "plain" ("$\x7b" ++ p.1 ++ "\x7d") = false) ∧
    ParseSubstitutions "plain" [("k", "v")] = "plain" :=
  ⟨by decide, c6_amended.1 "plain" [("k", "v")] (by decide)⟩

/-! ## parseYaml lemmas -/

/-- parseYaml of a list of successfully decoded documents followed by a
failing document ignores the failing document and everything after it. -/
theorem parseYaml_append_malformed (pre post : List YDoc) (root path : String)
    (hpre : ∀ y ∈ pre, y ≠ YDoc.malformed) :
    parseYaml (pre ++ YDoc.malformed :: post) root path = parseYaml pre root path := by
  induction pre with
  | nil => rfl
  | cons y pre2 ih =>
    obtain ⟨d, rfl⟩ : ∃ d, y = YDoc.ok d := by
      cases y with
      | malformed => exact absurd rfl (hpre _ (List.mem_cons_self _ _))
      | ok d => exact ⟨d, rfl⟩
    have ih2 := ih (fun z hz => hpre z (List.mem_cons_of_mem _ hz))
    rw [List.cons_append, parseYaml, parseYaml, ih2]

/-- Every successfully decoded kustomization document of a stream with
no decode failure is turned into a manifest record of the parse result. -/
theorem parseYaml_mem_kust (pre : List YDoc) (root path : String) (dd : ApiFields)
    (hpre : ∀ y ∈ pre, y ≠ YDoc.malformed)
    (hmem : YDoc.ok dd ∈ pre) (hapi : goSplitFirst dd.apiVersion = kustomizationApi) :
    mkKustRecord dd root path ∈ (parseYaml pre root path).1 := by
  induction pre with
  | nil => cases hmem
  | cons y pre2 ih =>
    obtain ⟨d0, rfl⟩ : ∃ d0, y = YDoc.ok d0 := by
      cases y with
      | malformed => exact absurd rfl (hpre _ (List.mem_cons_self _ _))
      | ok d0 => exact ⟨d0, rfl⟩
    rcases List.mem_cons.mp hmem with h | h
    · rw [YDoc.ok.injEq] at h
      subst h
      rw [parseYaml]
      simp only [hapi, if_pos rfl]
      exact List.mem_cons_self _ _
    · have hin := ih (fun z hz => hpre z (List.mem_cons_of_mem _ hz)) h
      rw [parseYaml]
      by_cases h1 : goSplitFirst d0.apiVersion = kustomizationApi
      · simp only [h1, if_pos rfl]
        exact List.mem_cons_of_mem _ hin
      · by_cases h2 : goSplitFirst d0.apiVersion = sourceApi
        · simp only [h1, h2, if_false, if_pos rfl]
          exact hin
        · simp only [h1, h2, if_false]
          exact hin

/-- Every successfully decoded source document of a stream with no
decode failure is turned into a source record of the parse result. -/
theorem parseYaml_mem_source (pre : List YDoc) (root path : String) (dd : ApiFields)
    (hpre : ∀ y ∈ pre, y ≠ YDoc.malformed)
    (hmem : YDoc.ok dd ∈ pre) (hapi : goSplitFirst dd.apiVersion = sourceApi) :
    mkSourceRecord dd path ∈ (parseYaml pre root path).2 := by
  induction pre with
  | nil => cases hmem
  | cons y pre2 ih =>
    obtain ⟨d0, rfl⟩ : ∃ d0, y = YDoc.ok d0 := by
      cases y with
      | malformed => exact absurd rfl (hpre _ (List.mem_cons_self _ _))
      | ok d0 => exact ⟨d0, rfl⟩
    rcases List.mem_cons.mp hmem with h | h
    · rw [YDoc.ok.injEq] at h
      subst h
      have hk : goSplitFirst dd.apiVersion ≠ kustomizationApi := by
        rw [hapi]
        decide
      rw [parseYaml]
      simp only [hk, hapi, if_false, if_pos rfl]
      exact List.mem_cons_self _ _
    · have hin := ih (fun z hz => hpre z (List.mem_cons_of_mem _ hz)) h
      rw [parseYaml]
      by_cases h1 : goSplitFirst d0.apiVersion = kustomizationApi
      · simp only [h1, if_pos rfl]
        exact hin
      · by_cases h2 : goSplitFirst d0.apiVersion = sourceApi
        · simp only [h1, h2, if_false, if_pos rfl]
          exact List.mem_cons_of_mem _ hin
        · simp only [h1, h2, if_false]
          exact hin

/-! ## C10 -/

/-- C10 theorem: when decoding a multi-document stream the parser stops
at the first document that fails to decode: the result over
well-decoded documents followed by a failing one and arbitrary trailing
documents equals the result over the leading documents alone, in which
every recognized kustomization or source document is present; the
trailing documents are never discovered. -/
theorem c10_parse_stops (pre post : List YDoc) (d : YDoc) (root path : String)
    (hpre : ∀ y ∈ pre, y ≠ YDoc.malformed) (hd : d = YDoc.malformed) :
    parseYaml (pre ++ d :: post) root path = parseYaml pre root path ∧
    (∀ dd : ApiFields, YDoc.ok dd ∈ pre →
        goSplitFirst dd.apiVersion = kustomizationApi →
        mkKustRecord dd root path ∈ (parseYaml pre root path).1) ∧
    (∀ dd : ApiFields, YDoc.ok dd ∈ pre →
        goSplitFirst dd.apiVersion = sourceApi →
        mkSourceRecord dd path ∈ (parseYaml pre root path).2) := by
  subst hd
  exact ⟨parseYaml_append_malformed pre post root path hpre,
    fun dd hmem hapi => parseYaml_mem_kust pre root path dd hpre hmem hapi,
    fun dd hmem hapi => parseYaml_mem_source pre root path dd hpre hmem hapi⟩

/-- C10 witness: one recognized kustomization document, a failing
document, then a recognized source document that is never discovered. -/
theorem c10_parse_stops_witness :
    (∀ y ∈ [YDoc.ok docC10k], y ≠ YDoc.malformed) ∧
    parseYaml ([YDoc.ok docC10k] ++ YDoc.malformed :: [YDoc.ok docC10s]) "/r" "/r/f.yaml" =
      parseYaml [YDoc.ok docC10k] "/r" "/r/f.yaml" ∧
    mkKustRecord docC10k "/r" "/r/f.yaml" ∈
      (parseYaml [YDoc.ok docC10k] "/r" "/r/f.yaml").1 := by
  refine ⟨by decide, ?_, ?_⟩
  · exact (c10_parse_stops [YDoc.ok docC10k] [YDoc.ok docC10s] YDoc.malformed "/r" "/r/f.yaml"
      (by decide) rfl).1
  · exact (c10_parse_stops [YDoc.ok docC10k] [YDoc.ok docC10s] YDoc.malformed "/r" "/r/f.yaml"
      (by decide) rfl).2.1 docC10k (List.mem_cons_self _ _) (by decide)

/-! ## C3 -/

/-- C3 evaluation (the claim is right, the code wrong): the duplicate
check of setSource compares the metadata name and namespace of already
bound children against the sourceRef name and namespace of the manifest
being bound, so for a manifest named apps referencing a source named
repo a second setSource call appends the same manifest again, leaving
two entries where the claim (and the block-duplication comment in the
code) require exactly one; furthermore there is no break after the
first matching source, so with two sources of identical kind, name and
namespace the manifest is appended to both and its source field ends on
the last match instead of the first. -/
theorem c3_setSource_eval :
    ((setSource (setSource stC3 0) 0).sources.map (fun s => s.children)) = [[0, 0]] ∧
    ((setSource stC3b 0).sources.map (fun s => s.children)) = [[0], [0]] ∧
    ((setSource stC3b 0).kustomizations.map (fun k => k.source)) = [some 1] :=
  ⟨by rfl, by rfl, by rfl⟩

/-! ## C8 -/

/-- C8 evaluation (the claim is right, the code wrong): the recursive
descent of followKustomization maintains no visited-path set at all; on
a repository whose two layering files name the directory of each other
as a resource the call terminates only because the recursive call reads
the directory path as a file, which fails, and returns having processed
nothing, for every recursion budget. -/
theorem c8_no_cycle_guard_eval :
    ∀ (fuel : Nat) (st : MState),
      followKustomization fsC8 "/r" fuel 0 "/r/A/kustomization.yaml" st = st ∧
      followKustomization fsC8 "/r" fuel 0 "/r/B/kustomization.yaml" st = st := by
  intro fuel st
  match fuel with
  | 0 => exact ⟨rfl, rfl⟩
  | 1 => exact ⟨rfl, rfl⟩
  | _ + 2 => exact ⟨rfl, rfl⟩

/-! ## C1 -/

/-- C1 evaluation (the claim is right, the code wrong): on a repository
whose layering file under the declared build directory lists a sibling
manifest file as a resource, the claim requires the sibling manifest to
be bound as a child of the declaring manifest.  The code resolves each
resource by joining it onto the path of the layering file itself rather
than its directory, and compares the absolutized result against stored
manifest paths that are root-relative, so nothing ever matches: after
the full run both manifests are classified but no children or parent
fields are ever populated. -/
theorem c1_no_binding_eval :
    runPipeline fsC1 "/r" 2 = Outcome.ready (readyState (runPipeline fsC1 "/r" 2)) true ∧
    (readyKusts (runPipeline fsC1 "/r" 2)).map (fun k => (k.GetName, k.children, k.ftype)) =
      [("app", [], FluxFileType.Complete), ("apps", [], FluxFileType.Complete)] ∧
    (readyKusts (runPipeline fsC1 "/r" 2)).map (fun k => k.parent) = [none, none] :=
  ⟨by rfl, by rfl, by rfl⟩

/-! ## C2 -/

/-- C2 counterexample: a sibling layering file that exists but cannot
be read or parsed.  The claim classifies Complete only when the own
file name is a declared resource or no sibling layering file exists at
all, and otherwise keeps Base; here the sibling exists, nothing is
declared, and the code still classifies Complete because
GetKustomization collapses read and unmarshal failures into the same
nil result as a missing file. -/
theorem c2_counterexample :
    manifestClassification fsC2 "/r" kustC2 = FluxFileType.Complete ∧
    (fsC2.statIsDir (goJoin (goDir (linkPath "/r" kustC2)) "kustomization.yaml")).isSome = true ∧
    fsC2.readSigs (goJoin (goDir (linkPath "/r" kustC2)) "kustomization.yaml") = none ∧
    FluxFileType.Complete ≠ FluxFileType.Base :=
  ⟨by rfl, by rfl, by rfl, by decide⟩

/-- C2 theorem (amended): for a manifest still carrying its initial
Base classification, the linking pass classifies Complete exactly when
the sibling layering lookup yields nothing (no kustomization.yaml or
kustomization.yml in the manifest directory, or one that cannot be read
or parsed) or the manifest file name is in the declared resource list;
Patch exactly when a layering file was decoded, the file name is not a
declared resource and it matches a declared patch target; and Base
otherwise. -/
theorem c2_amended (fs : GoFS) (root : String) (k : shortApi)
    (hBase : k.ftype = FluxFileType.Base) :
    (manifestClassification fs root k = FluxFileType.Complete ↔
      (GetKustomization fs (linkPath root k)).2 = none ∨
      ∃ kk, (GetKustomization fs (linkPath root k)).2 = some kk ∧
        kk.resources.contains (goBase (linkPath root k)) = true) ∧
    (manifestClassification fs root k = FluxFileType.Patch ↔
      ∃ kk, (GetKustomization fs (linkPath root k)).2 = some kk ∧
        kk.resources.contains (goBase (linkPath root k)) = false ∧
        kk.patches.any (fun p => p.path = goBase (linkPath root k)) = true) ∧
    (manifestClassification fs root k = FluxFileType.Base ↔
      ∃ kk, (GetKustomization fs (linkPath root k)).2 = some kk ∧
        kk.resources.contains (goBase (linkPath root k)) = false ∧
        kk.patches.any (fun p => p.path = goBase (linkPath root k)) = false) := by
  unfold manifestClassification classifyFtype
  rcases hk : (GetKustomization fs (linkPath root k)).2 with _ | kk
  · simp
  · simp only [Option.some.injEq]
    by_cases hc : kk.resources.contains (goBase (linkPath root k)) = true
    · have hcm := hc
      simp at hcm
      simp [hc, hcm]
    · rw [Bool.not_eq_true] at hc
      have hcm := hc
      simp at hcm
      by_cases hp : kk.patches.any (fun p => p.path = goBase (linkPath root k)) = true
      · have hpm := hp
        simp at hpm
        simp [hc, hp, hcm, hpm]
      · rw [Bool.not_eq_true] at hp
        have hpm := hp
        simp at hpm
        simp [hc, hp, hcm, hBase]
        exact hpm

/-- C2 witness: the amended characterization applied to the concrete
manifest next to the unparsable layering file. -/
theorem c2_amended_witness :
    kustC2.ftype = FluxFileType.Base ∧
    (manifestClassification fsC2 "/r" kustC2 = FluxFileType.Complete ↔
      (GetKustomization fsC2 (linkPath "/r" kustC2)).2 = none ∨
      ∃ kk, (GetKustomization fsC2 (linkPath "/r" kustC2)).2 = some kk ∧
        kk.resources.contains (goBase (linkPath "/r" kustC2)) = true) :=
  ⟨rfl, (c2_amended fsC2 "/r" kustC2 rfl).1⟩

/-! ## Cluster candidate lemmas -/

/-- The candidate names produced by the post-processing fold of
checkClusterCandidates: each match contributes its following segment,
or the marker literal when the following segment is a reserved name. -/
theorem checkClusterFold_names (ms : List (String × String)) (acc : List String) (p : String) :
    (ms.foldl
      (fun acc m =>
        if commonNamespaces.contains m.2 then (acc.1 ++ [m.1], goTrimSuffix acc.2 m.2)
        else (acc.1 ++ [m.2], acc.2))
      (acc, p)).1 =
    acc ++ ms.map (fun m => if commonNamespaces.contains m.2 then m.1 else m.2) := by
  induction ms generalizing acc p with
  | nil => simp
  | cons m ms2 ih =>
    rw [List.foldl_cons]
    by_cases hr : commonNamespaces.contains m.2
    · simp only [hr, if_pos rfl, List.map_cons]
      rw [ih]
      simp
    · simp only [hr, Bool.false_eq_true, if_false, List.map_cons]
      rw [ih]
      simp [hr]

/-- Recorded-path half of the candidate fold of checkClusterPath: the
name accumulator does not influence it, and each match whose following
segment is reserved trims that segment off the accumulated path. -/
theorem checkClusterFold_path (ms : List (String × String)) (acc : List String) (p : String) :
    (ms.foldl
      (fun acc m =>
        if commonNamespaces.contains m.2 then (acc.1 ++ [m.1], goTrimSuffix acc.2 m.2)
        else (acc.1 ++ [m.2], acc.2))
      (acc, p)).2 =
    ms.foldl
      (fun q m => if commonNamespaces.contains m.2 then goTrimSuffix q m.2 else q) p := by
  induction ms generalizing acc p with
  | nil => rfl
  | cons m ms2 ih =>
    rw [List.foldl_cons, List.foldl_cons]
    by_cases hr : commonNamespaces.contains m.2 = true
    · rw [if_pos hr, if_pos hr]
      exact ih _ _
    · rw [if_neg hr, if_neg hr]
      exact ih _ _

/-- strings.TrimSuffix removes the suffix exactly when the string ends
with it and is the identity otherwise. -/
theorem goTrimSuffix_ends (p s : String) :
    goTrimSuffix p s =
      if goEndsWith p s = true then String.mk (p.data.take (p.data.length - s.data.length))
      else p := by
  unfold goTrimSuffix goEndsWith
  rfl

/-- The recorded-path fold rewritten in only-when-suffix form: a
reserved following segment is chopped off the end of the accumulated
path exactly when the path currently ends with it; every other match
leaves the path unchanged. -/
theorem trimFold_ends (ms : List (String × String)) :
    ∀ p : String,
      ms.foldl (fun q m => if commonNamespaces.contains m.2 then goTrimSuffix q m.2 else q) p =
      ms.foldl
        (fun q m =>
          if commonNamespaces.contains m.2 = true ∧ goEndsWith q m.2 = true then
            String.mk (q.data.take (q.data.length - m.2.data.length))
          else q) p := by
  induction ms with
  | nil => intro p; rfl
  | cons m ms2 ih =>
    intro p
    rw [List.foldl_cons, List.foldl_cons]
    have hstep : (if commonNamespaces.contains m.2 then goTrimSuffix p m.2 else p) =
        (if commonNamespaces.contains m.2 = true ∧ goEndsWith p m.2 = true then
          String.mk (p.data.take (p.data.length - m.2.data.length))
        else p) := by
      by_cases hr : commonNamespaces.contains m.2 = true
      · rw [if_pos hr, goTrimSuffix_ends]
        by_cases hq : goEndsWith p m.2 = true
        · rw [if_pos hq, if_pos ⟨hr, hq⟩]
        · rw [if_neg hq, if_neg (fun hc => hq hc.2)]
      · rw [if_neg hr, if_neg (fun hc => hr hc.1)]
    rw [hstep, ih]

/-- Every match of the cluster regular expression scan corresponds to
an adjacent segment pair: a segment ending in clusters or hub followed
by the non-empty captured segment, with the marker literal as the first
capture. -/
theorem scanSegs_mem : ∀ (segs : List String) (g1 g2 : String),
    (g1, g2) ∈ scanSegs segs →
    ∃ i a, segs.get? i = some a ∧ segs.get? (i + 1) = some g2 ∧ g2 ≠ "" ∧
      ((g1 = "hub" ∧ goEndsWith a "hub" = true) ∨
        (g1 = "clusters" ∧ goEndsWith a "clusters" = true))
  | [], g1, g2, h => by rw [scanSegs] at h; cases h
  | [a], g1, g2, h => by rw [scanSegs] at h; cases h
  | a :: b :: rest, g1, g2, h => by
    rw [scanSegs] at h
    split_ifs at h with h1 h2
    · simp only [Bool.and_eq_true, decide_eq_true_eq] at h1
      rcases List.mem_cons.mp h with he | hm
      · rw [Prod.mk.injEq] at he
        exact ⟨0, a, rfl, by simp [he.2.symm], he.2 ▸ h1.1, Or.inl ⟨he.1, h1.2⟩⟩
      · obtain ⟨i, a2, hg1, hg2, hne, hmark⟩ := scanSegs_mem rest g1 g2 hm
        exact ⟨i + 2, a2, hg1, hg2, hne, hmark⟩
    · simp only [Bool.and_eq_true, decide_eq_true_eq] at h2
      rcases List.mem_cons.mp h with he | hm
      · rw [Prod.mk.injEq] at he
        exact ⟨0, a, rfl, by simp [he.2.symm], he.2 ▸ h2.1, Or.inr ⟨he.1, h2.2⟩⟩
      · obtain ⟨i, a2, hg1, hg2, hne, hmark⟩ := scanSegs_mem rest g1 g2 hm
        exact ⟨i + 2, a2, hg1, hg2, hne, hmark⟩
    · obtain ⟨i, a2, hg1, hg2, hne, hmark⟩ := scanSegs_mem (b :: rest) g1 g2 h
      exact ⟨i + 1, a2, hg1, hg2, hne, hmark⟩

/-! ## C4 -/

/-- C4 counterexample: the path hostclusters/prod contains no segment
literally equal to clusters or hub (and no hidden or bases segment),
yet the code produces the candidate name prod, because the regular
expression allows an arbitrary non-separator run before the marker
literal, matching any segment that merely ends in clusters or hub. -/
theorem c4_counterexample :
    (checkClusterCandidates "" "hostclusters/prod").1 = ["prod"] ∧
    (∀ seg ∈ goSplitSlash (goTrimPrefixStr (goTrimRightSlash "hostclusters/prod") ("" ++ "/")),
      seg ≠ "clusters" ∧ seg ≠ "hub") :=
  ⟨by rfl, by decide⟩

/-- C4 theorem (amended): a cluster candidate is produced only when the
(rightmost-separator-trimmed) path contains no hidden-segment marker
and no bases marker and some segment of the root-trimmed remainder ends
in clusters or hub.  Each candidate name arises from an adjacent pair
(marker segment, following segment): when the following segment is not
reserved it becomes the name; when it is reserved, the name is exactly
the marker literal the segment matched on — hub for a segment ending in
hub, clusters for one ending in clusters.  The recorded path starts as
the separator-trimmed original path, and each match with a reserved
following segment chops that segment off the end of the recorded path
exactly when the path currently ends with it, all other matches leaving
it unchanged. -/
theorem c4_amended (root path : String)
    (h : (checkClusterCandidates root path).1 ≠ []) :
    goContains (goTrimRightSlash path) "/." = false ∧
    goContains (goTrimRightSlash path) "bases/" = false ∧
    (∃ seg ∈ goSplitSlash (goTrimPrefixStr (goTrimRightSlash path) (root ++ "/")),
      goEndsWith seg "clusters" = true ∨ goEndsWith seg "hub" = true) ∧
    (∀ n ∈ (checkClusterCandidates root path).1,
      ∃ i a b,
        (goSplitSlash (goTrimPrefixStr (goTrimRightSlash path) (root ++ "/"))).get? i = some a ∧
        (goSplitSlash (goTrimPrefixStr (goTrimRightSlash path) (root ++ "/"))).get? (i + 1) =
          some b ∧
        b ≠ "" ∧
        ((commonNamespaces.contains b = false ∧ n = b ∧
            (goEndsWith a "clusters" = true ∨ goEndsWith a "hub" = true)) ∨
          (commonNamespaces.contains b = true ∧
            ((n = "hub" ∧ goEndsWith a "hub" = true) ∨
              (n = "clusters" ∧ goEndsWith a "clusters" = true))))) ∧
    (checkClusterCandidates root path).2 =
      (scanSegs (goSplitSlash (goTrimPrefixStr (goTrimRightSlash path) (root ++ "/")))).foldl
        (fun q m =>
          if commonNamespaces.contains m.2 = true ∧ goEndsWith q m.2 = true then
            String.mk (q.data.take (q.data.length - m.2.data.length))
          else q)
        (goTrimRightSlash path) := by
  have h1 : goContains (goTrimRightSlash path) "/." = false := by
    by_contra hcon
    rw [Bool.not_eq_false] at hcon
    apply h
    unfold checkClusterCandidates
    simp [hcon]
  have h2 : goContains (goTrimRightSlash path) "bases/" = false := by
    by_contra hcon
    rw [Bool.not_eq_false] at hcon
    apply h
    unfold checkClusterCandidates
    simp [hcon]
  have hcand : (checkClusterCandidates root path).1 =
      (scanSegs (goSplitSlash (goTrimPrefixStr (goTrimRightSlash path) (root ++ "/")))).map
        (fun m => if commonNamespaces.contains m.2 then m.1 else m.2) := by
    unfold checkClusterCandidates
    simp only [h1, h2, Bool.or_self, Bool.false_eq_true, if_false]
    rw [checkClusterFold_names]
    simp
  rw [hcand] at h
  refine ⟨h1, h2, ?_, ?_, ?_⟩
  · have hscan : scanSegs
        (goSplitSlash (goTrimPrefixStr (goTrimRightSlash path) (root ++ "/"))) ≠ [] := by
      intro hnil
      exact h (by rw [hnil]; rfl)
    obtain ⟨m, hm⟩ := List.exists_mem_of_ne_nil _ hscan
    obtain ⟨i, a, hg1, _, _, hmark⟩ := scanSegs_mem _ m.1 m.2 hm
    refine ⟨a, List.get?_mem hg1, ?_⟩
    rcases hmark with ⟨_, hend⟩ | ⟨_, hend⟩
    · exact Or.inr hend
    · exact Or.inl hend
  · rw [hcand]
    intro n hn
    rw [List.mem_map] at hn
    obtain ⟨m, hm, hfn⟩ := hn
    obtain ⟨i, a, hg1, hg2, hne, hmark⟩ := scanSegs_mem _ m.1 m.2 hm
    refine ⟨i, a, m.2, hg1, hg2, hne, ?_⟩
    by_cases hr : commonNamespaces.contains m.2 = true
    · right
      refine ⟨hr, ?_⟩
      rw [← hfn]
      simp only [hr, if_pos rfl]
      exact hmark
    · left
      have hrf : commonNamespaces.contains m.2 = false := by
        rw [← Bool.not_eq_true]
        exact hr
      refine ⟨hrf, ?_, ?_⟩
      · rw [← hfn]
        simp only [hrf, Bool.false_eq_true, if_false]
      · rcases hmark with ⟨_, hend⟩ | ⟨_, hend⟩
        · exact Or.inr hend
        · exact Or.inl hend
  · unfold checkClusterCandidates
    simp only [h1, h2, Bool.or_self, Bool.false_eq_true, if_false]
    rw [checkClusterFold_path, trimFold_ends]

/-! ## Reparenting lemmas (towards C5)

The pass state is the root slice as a list of optional nodes; an index
is alive when its entry is a non-nil node.  The lemmas below establish:
entries never revive, their name and fpath fields never change, the
outer index stays alive through its inner loop, and after the pass any
two distinct surviving roots have been checked against each other with
a negative stat result. -/

/-- An index whose lookup succeeds is within bounds. -/
theorem get?_some_lt {α : Type} (l : List α) (n : Nat) (a : α) (h : l.get? n = some a) :
    n < l.length := by
  by_contra hc
  push_neg at hc
  rw [List.get?_eq_none.mpr hc] at h
  cases h

/-- The nil-defaulted lookup the Go loops perform sees exactly the
alive entries. -/
theorem getDAlive (os : List (Option ClusterNode)) (k : Nat) (c : ClusterNode) :
    os.getD k none = some c ↔ os.get? k = some (some c) := by
  rw [List.getD_eq_getD_get?]
  rcases h : os.get? k with _ | o
  · simp
  · rcases o with _ | c2 <;> simp

/-- withChildren does not change the name. -/
theorem withChildren_name (c : ClusterNode) (cs : List (Option ClusterNode)) :
    (c.withChildren cs).name = c.name := rfl

/-- withChildren does not change the path. -/
theorem withChildren_fpath (c : ClusterNode) (cs : List (Option ClusterNode)) :
    (c.withChildren cs).fpath = c.fpath := rfl

/-- One absorb step preserves the slice length. -/
theorem stepAbsorb_length (f : String → Bool) (i : Nat) (os : List (Option ClusterNode))
    (j : Nat) : (stepAbsorb f i os j).length = os.length := by
  unfold stepAbsorb
  split
  · rfl
  · split
    · split
      · simp [List.length_set]
      · rfl
    · rfl

/-- The inner fold preserves the slice length. -/
theorem innerFold_length (f : String → Bool) (i : Nat) (js : List Nat) :
    ∀ os : List (Option ClusterNode), (js.foldl (stepAbsorb f i) os).length = os.length := by
  induction js with
  | nil => intro os; rfl
  | cons j js ih =>
    intro os
    rw [List.foldl_cons, ih, stepAbsorb_length]

/-- innerAbsorb preserves the slice length. -/
theorem innerAbsorb_length (f : String → Bool) (i : Nat) (os : List (Option ClusterNode)) :
    (innerAbsorb f i os).length = os.length := innerFold_length f i _ os

/-- The outer fold preserves the slice length. -/
theorem outerFold_length (f : String → Bool) (is : List Nat) :
    ∀ os : List (Option ClusterNode), (is.foldl (outerStep f) os).length = os.length := by
  induction is with
  | nil => intro os; rfl
  | cons i is ih =>
    intro os
    rw [List.foldl_cons, ih]
    unfold outerStep
    cases h : os.getD i none with
    | none => rfl
    | some c => exact innerAbsorb_length f i os

/-- A dead or out-of-range inner index makes the step a no-op. -/
theorem stepAbsorb_dead (f : String → Bool) (i : Nat) (os : List (Option ClusterNode))
    (j : Nat) (h : os.getD j none = none) : stepAbsorb f i os j = os := by
  unfold stepAbsorb
  split
  · rfl
  · split
    · rename_i cj ci hcj hci
      rw [h] at hcj
      cases hcj
    · rfl

/-- A step with a negative stat check is a no-op. -/
theorem stepAbsorb_nofile (f : String → Bool) (i : Nat) (os : List (Option ClusterNode))
    (j : Nat) (cj ci : ClusterNode) (hj : os.getD j none = some cj)
    (hi : os.getD i none = some ci)
    (hst : f (goJoin ci.fpath cj.name ++ ".yaml") = false) :
    stepAbsorb f i os j = os := by
  unfold stepAbsorb
  split
  · rfl
  · split
    · rename_i cj2 ci2 hcj2 hci2
      rw [hj] at hcj2
      rw [hi] at hci2
      cases hcj2
      cases hci2
      rw [hst]
      simp
    · rfl

/-- Backward stability of one step: an entry alive afterwards was alive
before, with the same name and path (only children can change, and only
for the outer index). -/
theorem stepAbsorb_stab (f : String → Bool) (i : Nat) (os : List (Option ClusterNode))
    (j k : Nat) (c2 : ClusterNode) (h : (stepAbsorb f i os j).get? k = some (some c2)) :
    ∃ c, os.get? k = some (some c) ∧ c2.name = c.name ∧ c2.fpath = c.fpath := by
  unfold stepAbsorb at h
  split at h
  · exact ⟨c2, h, rfl, rfl⟩
  · rename_i hj
    split at h
    · rename_i cj ci hcj hci
      split at h
      · by_cases hk : k = j
        · subst hk
          have hklen : k < os.length := get?_some_lt _ _ _ ((getDAlive os k cj).mp hcj)
          rw [List.get?_set_eq_of_lt none (by rwa [List.length_set])] at h
          cases h
        · rw [List.get?_set_ne none _ (fun hh => hk hh.symm)] at h
          by_cases hki : k = i
          · subst hki
            have hklen : k < os.length := get?_some_lt _ _ _ ((getDAlive os k ci).mp hci)
            rw [List.get?_set_eq_of_lt _ hklen] at h
            rw [Option.some.injEq, Option.some.injEq] at h
            refine ⟨ci, (getDAlive os k ci).mp hci, ?_, ?_⟩
            · rw [← h, withChildren_name]
            · rw [← h, withChildren_fpath]
          · rw [List.get?_set_ne _ _ (fun hh => hki hh.symm)] at h
            exact ⟨c2, h, rfl, rfl⟩
      · exact ⟨c2, h, rfl, rfl⟩
    · exact ⟨c2, h, rfl, rfl⟩

/-- Backward stability through the inner fold. -/
theorem innerFold_stab (f : String → Bool) (i : Nat) (js : List Nat) :
    ∀ (os : List (Option ClusterNode)) (k : Nat) (c2 : ClusterNode),
      (js.foldl (stepAbsorb f i) os).get? k = some (some c2) →
      ∃ c, os.get? k = some (some c) ∧ c2.name = c.name ∧ c2.fpath = c.fpath := by
  induction js with
  | nil =>
    intro os k c2 h
    exact ⟨c2, h, rfl, rfl⟩
  | cons j js ih =>
    intro os k c2 h
    rw [List.foldl_cons] at h
    obtain ⟨c1, hc1, hn1, hf1⟩ := ih (stepAbsorb f i os j) k c2 h
    obtain ⟨c0, hc0, hn0, hf0⟩ := stepAbsorb_stab f i os j k c1 hc1
    exact ⟨c0, hc0, by rw [hn1, hn0], by rw [hf1, hf0]⟩

/-- Backward stability of one outer step. -/
theorem outerStep_stab (f : String → Bool) (os : List (Option ClusterNode)) (i k : Nat)
    (c2 : ClusterNode) (h : (outerStep f os i).get? k = some (some c2)) :
    ∃ c, os.get? k = some (some c) ∧ c2.name = c.name ∧ c2.fpath = c.fpath := by
  unfold outerStep at h
  cases hd : os.getD i none with
  | none =>
    rw [hd] at h
    exact ⟨c2, h, rfl, rfl⟩
  | some c0 =>
    rw [hd] at h
    exact innerFold_stab f i _ os k c2 h

/-- Backward stability through the outer fold. -/
theorem outerFold_stab (f : String → Bool) (is : List Nat) :
    ∀ (os : List (Option ClusterNode)) (k : Nat) (c2 : ClusterNode),
      (is.foldl (outerStep f) os).get? k = some (some c2) →
      ∃ c, os.get? k = some (some c) ∧ c2.name = c.name ∧ c2.fpath = c.fpath := by
  induction is with
  | nil =>
    intro os k c2 h
    exact ⟨c2, h, rfl, rfl⟩
  | cons i is ih =>
    intro os k c2 h
    rw [List.foldl_cons] at h
    obtain ⟨c1, hc1, hn1, hf1⟩ := ih (outerStep f os i) k c2 h
    obtain ⟨c0, hc0, hn0, hf0⟩ := outerStep_stab f os i k c1 hc1
    exact ⟨c0, hc0, by rw [hn1, hn0], by rw [hf1, hf0]⟩

/-- The outer index stays alive through a step with unchanged name and
path (only its children may grow). -/
theorem stepAbsorb_keep (f : String → Bool) (i : Nat) (os : List (Option ClusterNode))
    (j : Nat) (ci : ClusterNode) (hci : os.get? i = some (some ci)) :
    ∃ ci2, (stepAbsorb f i os j).get? i = some (some ci2) ∧
      ci2.name = ci.name ∧ ci2.fpath = ci.fpath := by
  unfold stepAbsorb
  split
  · exact ⟨ci, hci, rfl, rfl⟩
  · rename_i hj
    split
    · rename_i cj ci0 hcj hci0
      have hd : os.getD i none = some ci := (getDAlive os i ci).mpr hci
      rw [hd] at hci0
      cases hci0
      split
      · have hilen : i < os.length := get?_some_lt _ _ _ hci
        rw [List.get?_set_ne none _ hj]
        rw [List.get?_set_eq_of_lt _ hilen]
        exact ⟨_, rfl, withChildren_name _ _, withChildren_fpath _ _⟩
      · exact ⟨ci, hci, rfl, rfl⟩
    · exact ⟨ci, hci, rfl, rfl⟩

/-- The outer index stays alive through the inner fold with unchanged
name and path. -/
theorem innerFold_keep (f : String → Bool) (i : Nat) (js : List Nat) :
    ∀ (os : List (Option ClusterNode)) (ci : ClusterNode),
      os.get? i = some (some ci) →
      ∃ ci2, (js.foldl (stepAbsorb f i) os).get? i = some (some ci2) ∧
        ci2.name = ci.name ∧ ci2.fpath = ci.fpath := by
  induction js with
  | nil =>
    intro os ci hci
    exact ⟨ci, hci, rfl, rfl⟩
  | cons j js ih =>
    intro os ci hci
    rw [List.foldl_cons]
    obtain ⟨ci1, hci1, hn1, hf1⟩ := stepAbsorb_keep f i os j ci hci
    obtain ⟨ci2, hci2, hn2, hf2⟩ := ih (stepAbsorb f i os j) ci1 hci1
    exact ⟨ci2, hci2, by rw [hn2, hn1], by rw [hf2, hf1]⟩

/-- An absorbing step kills the inner index. -/
theorem stepAbsorb_kill (f : String → Bool) (i : Nat) (os : List (Option ClusterNode))
    (j : Nat) (cj ci : ClusterNode) (hne : j ≠ i)
    (hcj : os.getD j none = some cj) (hci : os.getD i none = some ci)
    (hst : f (goJoin ci.fpath cj.name ++ ".yaml") = true) :
    (stepAbsorb f i os j).get? j = some none := by
  have hjlen : j < os.length := get?_some_lt _ _ _ ((getDAlive os j cj).mp hcj)
  unfold stepAbsorb
  rw [if_neg hne]
  split
  · rename_i cjx cix hcjx hcix
    rw [hcj] at hcjx
    injection hcjx with hcjx
    rw [hci] at hcix
    injection hcix with hcix
    subst hcjx
    subst hcix
    rw [if_pos hst]
    rw [List.get?_set_eq_of_lt none (by rwa [List.length_set])]
  · rename_i hcontra
    exact absurd hcj (by exact fun hh => hcontra cj ci hh hci)

/-- After the inner loop for a live outer index, every other index
still alive was stat-checked negatively against the outer index. -/
theorem innerFold_post (f : String → Bool) (i : Nat) (js : List Nat) :
    ∀ (os : List (Option ClusterNode)) (ci : ClusterNode),
      os.get? i = some (some ci) →
      ∀ j ∈ js, j ≠ i →
      ∀ cj2, (js.foldl (stepAbsorb f i) os).get? j = some (some cj2) →
      f (goJoin ci.fpath cj2.name ++ ".yaml") = false := by
  induction js with
  | nil =>
    intro os ci _ j hj
    cases hj
  | cons j0 js ih =>
    intro os ci hci j hj hne cj2 hcj2
    rw [List.foldl_cons] at hcj2
    obtain ⟨ci1, hci1, hn1, hf1⟩ := stepAbsorb_keep f i os j0 ci hci
    rcases List.mem_cons.mp hj with rfl | hjs
    · -- the scrutinized inner index itself
      cases hcj0 : os.getD j none with
      | none =>
        obtain ⟨cj1, hcj1, _, _⟩ := innerFold_stab f i js (stepAbsorb f i os j) j cj2 hcj2
        rw [stepAbsorb_dead f i os j hcj0] at hcj1
        rw [(getDAlive os j cj1).mpr hcj1] at hcj0
        cases hcj0
      | some cj0 =>
        have hgi : os.getD i none = some ci := (getDAlive os i ci).mpr hci
        cases hst : f (goJoin ci.fpath cj0.name ++ ".yaml") with
        | true =>
          -- absorbed at this step, so it cannot be alive afterwards
          obtain ⟨cj1, hcj1, _, _⟩ := innerFold_stab f i js (stepAbsorb f i os j) j cj2 hcj2
          have hdead : (stepAbsorb f i os j).get? j = some none :=
            stepAbsorb_kill f i os j cj0 ci hne hcj0 hgi hst
          rw [hdead] at hcj1
          cases hcj1
        | false =>
          rw [stepAbsorb_nofile f i os j cj0 ci hcj0 hgi hst] at hcj2
          obtain ⟨cj, hcj, hnm, _⟩ := innerFold_stab f i js os j cj2 hcj2
          have : cj = cj0 := by
            have h2 := (getDAlive os j cj).mpr hcj
            rw [hcj0] at h2
            exact ((Option.some.injEq _ _).mp h2).symm
          rw [hnm, this]
          exact hst
    · have hres := ih (stepAbsorb f i os j0) ci1 hci1 j hjs hne cj2 hcj2
      rwa [hf1] at hres

/-- After the whole outer fold, any two distinct alive indices carry a
negative stat fact from the first to the second. -/
theorem outerFold_post (f : String → Bool) (is : List Nat) :
    ∀ (os : List (Option ClusterNode)),
      ∀ i ∈ is, ∀ ci2, ((is.foldl (outerStep f) os).get? i = some (some ci2)) →
      ∀ j, j ≠ i →
      ∀ cj2, ((is.foldl (outerStep f) os).get? j = some (some cj2)) →
      f (goJoin ci2.fpath cj2.name ++ ".yaml") = false := by
  induction is with
  | nil =>
    intro os i hi
    cases hi
  | cons i0 is ih =>
    intro os i hi ci2 hci2 j hne cj2 hcj2
    rw [List.foldl_cons] at hci2 hcj2
    rcases List.mem_cons.mp hi with rfl | his
    · cases hd : os.getD i none with
      | none =>
        have hstep : outerStep f os i = os := by
          unfold outerStep
          rw [hd]
        rw [hstep] at hci2
        obtain ⟨ci1, hci1, _, _⟩ := outerFold_stab f is os i ci2 hci2
        rw [(getDAlive os i ci1).mpr hci1] at hd
        cases hd
      | some c0 =>
        have hstep : outerStep f os i = innerAbsorb f i os := by
          unfold outerStep
          rw [hd]
        rw [hstep] at hci2 hcj2
        have hci0 : os.get? i = some (some c0) := (getDAlive os i c0).mp hd
        -- the alive target index after the fold was alive after the inner loop
        obtain ⟨cj1, hcj1, hnmj, _⟩ := outerFold_stab f is (innerAbsorb f i os) j cj2 hcj2
        have hjlen : j < os.length := by
          have := get?_some_lt _ _ _ hcj1
          rwa [innerAbsorb_length] at this
        have hpost := innerFold_post f i (List.range os.length) os c0 hci0 j
          (List.mem_range.mpr hjlen) hne cj1 hcj1
        -- the surviving outer entry keeps the path of the original
        obtain ⟨ci1, hci1, _, hfp1⟩ := outerFold_stab f is (innerAbsorb f i os) i ci2 hci2
        obtain ⟨ci1b, hci1b, _, hfpb⟩ := innerFold_keep f i (List.range os.length) os c0 hci0
        have hdet : ci1 = ci1b := by
          have h2 := hci1b
          rw [show (List.range os.length).foldl (stepAbsorb f i) os = innerAbsorb f i os
            from rfl, hci1] at h2
          simp only [Option.some.injEq] at h2
          exact h2
        rw [hfp1, hdet, hfpb, hnmj]
        exact hpost
    · exact ih (outerStep f os i0) i his ci2 hci2 j hne cj2 hcj2

/-- Any two distinct roots surviving outerAbsorb were checked against
each other with a negative result. -/
theorem outerAbsorb_pairs (f : String → Bool) (os : List (Option ClusterNode)) :
    ∀ i j ci cj, i ≠ j →
      (outerAbsorb f os).get? i = some (some ci) →
      (outerAbsorb f os).get? j = some (some cj) →
      f (goJoin ci.fpath cj.name ++ ".yaml") = false := by
  intro i j ci cj hne h1 h2
  have hilen : i < os.length := by
    have := get?_some_lt _ _ _ h1
    rwa [show (outerAbsorb f os).length = os.length from outerFold_length f _ os] at this
  exact outerFold_post f (List.range os.length) os i (List.mem_range.mpr hilen) ci h1 j
    (fun hh => hne hh.symm) cj h2

/-- Index-indexed pair facts transfer to Pairwise over the rebuilt
(nil-free) root list. -/
theorem pairwise_filterMap_of_pairs (R : ClusterNode → ClusterNode → Prop) :
    ∀ os : List (Option ClusterNode),
      (∀ k l ck cl, k < l → os.get? k = some (some ck) → os.get? l = some (some cl) →
        R ck cl) →
      (os.filterMap id).Pairwise R := by
  intro os
  induction os with
  | nil =>
    intro _
    simp
  | cons o rest ih =>
    intro h
    cases o with
    | none =>
      simp only [List.filterMap_cons, id]
      exact ih (fun k l ck cl hkl h1 h2 =>
        h (k + 1) (l + 1) ck cl (by omega) (by simpa using h1) (by simpa using h2))
    | some a =>
      simp only [List.filterMap_cons, id]
      constructor
      · intro b hb
        rw [List.mem_filterMap] at hb
        obtain ⟨o2, ho2, hid⟩ := hb
        obtain ⟨l, hl⟩ := List.mem_iff_get?.mp ho2
        have hid2 : o2 = some b := hid
        have hb2 : rest.get? l = some (some b) := by
          rw [hl, hid2]
        exact h 0 (l + 1) a b (by omega) (by simp) (by simpa using hb2)
      · exact ih (fun k l ck cl hkl h1 h2 =>
          h (k + 1) (l + 1) ck cl (by omega) (by simpa using h1) (by simpa using h2))

/-- A step over a state whose alive pairs all carry negative stat facts
does nothing. -/
theorem stepAbsorb_deadOuter (f : String → Bool) (i : Nat) (os : List (Option ClusterNode))
    (j : Nat) (h : os.getD i none = none) : stepAbsorb f i os j = os := by
  unfold stepAbsorb
  split
  · rfl
  · split
    · rename_i cj ci hcj hci
      rw [h] at hci
      cases hci
    · rfl

/-- A step does nothing when every alive ordered pair of the state has
a negative stat fact. -/
theorem stepAbsorb_noop (f : String → Bool) (i : Nat) (os : List (Option ClusterNode))
    (j : Nat)
    (hp : ∀ i2 j2 ci cj, i2 ≠ j2 → os.get? i2 = some (some ci) →
      os.get? j2 = some (some cj) → f (goJoin ci.fpath cj.name ++ ".yaml") = false) :
    stepAbsorb f i os j = os := by
  by_cases hj : j = i
  · unfold stepAbsorb
    rw [if_pos hj]
  · cases hcj : os.getD j none with
    | none => exact stepAbsorb_dead f i os j hcj
    | some cj =>
      cases hci : os.getD i none with
      | none => exact stepAbsorb_deadOuter f i os j hci
      | some ci =>
        exact stepAbsorb_nofile f i os j cj ci hcj hci
          (hp i j ci cj (fun hh => hj hh.symm)
            ((getDAlive os i ci).mp hci) ((getDAlive os j cj).mp hcj))

/-- The inner fold does nothing on such a state. -/
theorem innerFold_noop (f : String → Bool) (i : Nat) (js : List Nat)
    (os : List (Option ClusterNode))
    (hp : ∀ i2 j2 ci cj, i2 ≠ j2 → os.get? i2 = some (some ci) →
      os.get? j2 = some (some cj) → f (goJoin ci.fpath cj.name ++ ".yaml") = false) :
    js.foldl (stepAbsorb f i) os = os := by
  induction js with
  | nil => rfl
  | cons j js ih =>
    rw [List.foldl_cons, stepAbsorb_noop f i os j hp, ih]

/-- The outer fold does nothing on such a state. -/
theorem outerFold_noop (f : String → Bool) (is : List Nat)
    (os : List (Option ClusterNode))
    (hp : ∀ i2 j2 ci cj, i2 ≠ j2 → os.get? i2 = some (some ci) →
      os.get? j2 = some (some cj) → f (goJoin ci.fpath cj.name ++ ".yaml") = false) :
    is.foldl (outerStep f) os = os := by
  induction is with
  | nil => rfl
  | cons i is ih =>
    have hstep : outerStep f os i = os := by
      unfold outerStep
      cases hd : os.getD i none with
      | none => rfl
      | some c => exact innerFold_noop f i (List.range os.length) os hp
    rw [List.foldl_cons, hstep, ih]

/-- outerAbsorb does nothing on such a state. -/
theorem outerAbsorb_noop (f : String → Bool) (os : List (Option ClusterNode))
    (hp : ∀ i2 j2 ci cj, i2 ≠ j2 → os.get? i2 = some (some ci) →
      os.get? j2 = some (some cj) → f (goJoin ci.fpath cj.name ++ ".yaml") = false) :
    outerAbsorb f os = os := outerFold_noop f _ os hp

/-- A pairwise no-absorb forest, lifted to an all-alive slice, carries
the negative stat facts in index form. -/
theorem mapSome_pairs (f : String → Bool) (l : List ClusterNode)
    (hp : l.Pairwise (noAbsorbPair f)) :
    ∀ i2 j2 ci cj, i2 ≠ j2 → (l.map some).get? i2 = some (some ci) →
      (l.map some).get? j2 = some (some cj) →
      f (goJoin ci.fpath cj.name ++ ".yaml") = false := by
  intro i2 j2 ci cj hne h1 h2
  rw [List.get?_map] at h1 h2
  have h1' : l.get? i2 = some ci := by
    cases hv : l.get? i2 with
    | none => rw [hv] at h1; cases h1
    | some a =>
      rw [hv] at h1
      simp at h1
      exact congrArg some h1
  have h2' : l.get? j2 = some cj := by
    cases hv : l.get? j2 with
    | none => rw [hv] at h2; cases h2
    | some a =>
      rw [hv] at h2
      simp at h2
      exact congrArg some h2
  have hi : i2 < l.length := get?_some_lt l i2 ci h1'
  have hj : j2 < l.length := get?_some_lt l j2 cj h2'
  have hgi : l.get ⟨i2, hi⟩ = ci := by
    have := List.get?_eq_get hi
    rw [h1'] at this
    exact ((Option.some.injEq _ _).mp this).symm
  have hgj : l.get ⟨j2, hj⟩ = cj := by
    have := List.get?_eq_get hj
    rw [h2'] at this
    exact ((Option.some.injEq _ _).mp this).symm
  rcases Nat.lt_trichotomy i2 j2 with hlt | heq | hgt
  · have hr := List.pairwise_iff_get.mp hp ⟨i2, hi⟩ ⟨j2, hj⟩ hlt
    rw [hgi, hgj] at hr
    exact hr.1
  · exact absurd heq hne
  · have hr := List.pairwise_iff_get.mp hp ⟨j2, hj⟩ ⟨i2, hi⟩ hgt
    rw [hgi, hgj] at hr
    exact hr.2

/-- Rebuilding an all-alive slice recovers the forest. -/
theorem filterMap_id_map_some (l : List ClusterNode) : (l.map some).filterMap id = l := by
  induction l with
  | nil => rfl
  | cons a rest ih =>
    simp only [List.map_cons, List.filterMap_cons, id]
    rw [ih]

/-- Asymmetry of the lexicographic character comparison. -/
theorem listLtChars_asymm : ∀ a b : List Char,
    listLtChars a b = true → listLtChars b a = false
  | [], [] => by simp [listLtChars]
  | [], _ :: _ => by intro _; simp [listLtChars]
  | _ :: _, [] => by simp [listLtChars]
  | x :: xs, y :: ys => by
    intro h
    rw [listLtChars] at h ⊢
    by_cases h1 : x < y
    · have h2 : ¬y < x := lt_asymm h1
      simp [h1, h2]
    · by_cases h2 : y < x
      · simp [h1, h2] at h
      · simp only [h1, h2, if_false] at h ⊢
        exact listLtChars_asymm xs ys h

/-- The negation of the lexicographic comparison is transitive. -/
theorem listLtChars_false_trans : ∀ a b c : List Char,
    listLtChars a b = false → listLtChars b c = false → listLtChars a c = false
  | a, b, [], _, _ => by
    cases a <;> simp [listLtChars]
  | a, [], z :: zs, hab, hbc => by
    rw [listLtChars] at hbc
    cases hbc
  | [], y :: ys, _ :: _, hab, _ => by
    rw [listLtChars] at hab
    cases hab
  | x :: xs, y :: ys, z :: zs, hab, hbc => by
    rw [listLtChars] at hab hbc ⊢
    have hxy : ¬x < y := by
      intro hcon
      simp [hcon] at hab
    have hyz : ¬y < z := by
      intro hcon
      simp [hcon] at hbc
    have hyx : y ≤ x := not_lt.mp hxy
    have hzy : z ≤ y := not_lt.mp hyz
    have hxz : ¬x < z := not_lt.mpr (le_trans hzy hyx)
    by_cases hzx : z < x
    · simp [hxz, hzx]
    · -- all three heads are equal
      have hxeqz : x = z := le_antisymm (not_lt.mp hzx) (le_trans hzy hyx)
      have hyltx : ¬y < x := by
        intro hcon
        exact hzx (lt_of_le_of_lt hzy (hxeqz ▸ hcon))
      have hzlty : ¬z < y := by
        intro hcon
        exact hzx (lt_of_lt_of_le (hxeqz ▸ hcon) hyx)
      simp only [hxy, hyltx, if_false] at hab
      simp only [hyz, hzlty, if_false] at hbc
      simp only [hxz, hzx, if_false]
      exact listLtChars_false_trans xs ys zs hab hbc

/-- Stable insertion permutes the inserted element into the list. -/
theorem stableInsert_perm {α : Type} (less : α → α → Bool) (x : α) :
    ∀ l : List α, (stableInsert less x l).Perm (x :: l)
  | [] => List.Perm.refl _
  | y :: ys => by
    rw [stableInsert]
    by_cases h : less y x = true
    · rw [if_pos h]
      exact ((stableInsert_perm less x ys).cons y).trans (List.Perm.swap x y ys)
    · rw [if_neg h]

/-- The stable sort is a permutation. -/
theorem stableSort_perm {α : Type} (less : α → α → Bool) :
    ∀ l : List α, (stableSort less l).Perm l
  | [] => List.Perm.refl _
  | a :: rest => by
    rw [show stableSort less (a :: rest) = stableInsert less a (stableSort less rest) from rfl]
    exact (stableInsert_perm less a (stableSort less rest)).trans
      ((stableSort_perm less rest).cons a)

/-- Insertion preserves sortedness, given asymmetry and transitivity of
the comparison. -/
theorem stableInsert_sorted {α : Type} (less : α → α → Bool)
    (hasym : ∀ a b, less a b = true → less b a = false)
    (htrans : ∀ a b c, less b a = false → less c b = false → less c a = false)
    (x : α) : ∀ l : List α,
    l.Pairwise (fun a b => less b a = false) →
    (stableInsert less x l).Pairwise (fun a b => less b a = false)
  | [], _ => by simp [stableInsert]
  | y :: ys, hs => by
    rw [List.pairwise_cons] at hs
    rw [stableInsert]
    by_cases h : less y x = true
    · rw [if_pos h]
      rw [List.pairwise_cons]
      constructor
      · intro z hz
        have hz2 := (stableInsert_perm less x ys).mem_iff.mp hz
        rcases List.mem_cons.mp hz2 with rfl | hzys
        · exact hasym y z h
        · exact hs.1 z hzys
      · exact stableInsert_sorted less hasym htrans x ys hs.2
    · rw [if_neg h]
      rw [Bool.not_eq_true] at h
      rw [List.pairwise_cons]
      constructor
      · intro z hz
        rcases List.mem_cons.mp hz with rfl | hzys
        · exact h
        · exact htrans x y z h (hs.1 z hzys)
      · exact List.pairwise_cons.mpr hs

/-- The stable sort output is sorted. -/
theorem stableSort_sorted {α : Type} (less : α → α → Bool)
    (hasym : ∀ a b, less a b = true → less b a = false)
    (htrans : ∀ a b c, less b a = false → less c b = false → less c a = false) :
    ∀ l : List α, (stableSort less l).Pairwise (fun a b => less b a = false)
  | [] => by simp [stableSort]
  | a :: rest => by
    rw [show stableSort less (a :: rest) = stableInsert less a (stableSort less rest) from rfl]
    exact stableInsert_sorted less hasym htrans a _ (stableSort_sorted less hasym htrans rest)

/-- Sorting an already sorted list is the identity (stability). -/
theorem stableSort_of_sorted {α : Type} (less : α → α → Bool) :
    ∀ l : List α, l.Pairwise (fun a b => less b a = false) → stableSort less l = l
  | [], _ => rfl
  | a :: rest, hs => by
    rw [List.pairwise_cons] at hs
    rw [show stableSort less (a :: rest) = stableInsert less a (stableSort less rest) from rfl]
    rw [stableSort_of_sorted less rest hs.2]
    cases rest with
    | nil => rfl
    | cons b rest2 =>
      rw [stableInsert, if_neg (by rw [hs.1 b (List.mem_cons_self _ _)]; simp)]

/-- The no-absorb relation is symmetric. -/
theorem noAbsorbPair_symm (f : String → Bool) {a b : ClusterNode}
    (h : noAbsorbPair f a b) : noAbsorbPair f b a := ⟨h.2, h.1⟩

/-! ## C5 -/

/-- C5 theorem (confirmed): the cluster reparenting pass is idempotent.
A second reparentClusters run on the output of a first run returns the
same forest: every surviving root pair was stat-checked negatively
during the first run (absorbing pairs lost one member), names and paths
of survivors never change, so the second run absorbs nothing, rebuilds
the same list, and the stable sort of the already name-sorted list is
the identity. -/
theorem c5_reparent_idempotent (statOK : String → Bool) (roots : List ClusterNode) :
    reparentClusters statOK (reparentClusters statOK roots) =
      reparentClusters statOK roots := by
  have hasym : ∀ a b : ClusterNode, lessClusterName a b = true → lessClusterName b a = false :=
    fun a b h => listLtChars_asymm _ _ h
  have htrans : ∀ a b c : ClusterNode, lessClusterName b a = false →
      lessClusterName c b = false → lessClusterName c a = false :=
    fun a b c h1 h2 => listLtChars_false_trans _ _ _ h2 h1
  have hpairs := outerAbsorb_pairs statOK (roots.map some)
  have hpwFil : ((outerAbsorb statOK (roots.map some)).filterMap id).Pairwise
      (noAbsorbPair statOK) :=
    pairwise_filterMap_of_pairs _ _ (fun k l ck cl hkl h1 h2 =>
      ⟨hpairs k l ck cl (Nat.ne_of_lt hkl) h1 h2,
        hpairs l k cl ck (Nat.ne_of_lt hkl).symm h2 h1⟩)
  have hpwR1 : (reparentClusters statOK roots).Pairwise (noAbsorbPair statOK) := by
    show (stableSort lessClusterName
      ((outerAbsorb statOK (roots.map some)).filterMap id)).Pairwise (noAbsorbPair statOK)
    exact ((stableSort_perm lessClusterName _).pairwise_iff
      (fun hab => noAbsorbPair_symm statOK hab)).mpr hpwFil
  have hsort : (reparentClusters statOK roots).Pairwise
      (fun a b => lessClusterName b a = false) := by
    show (stableSort lessClusterName
      ((outerAbsorb statOK (roots.map some)).filterMap id)).Pairwise _
    exact stableSort_sorted lessClusterName hasym htrans _
  rw [show reparentClusters statOK (reparentClusters statOK roots) =
      stableSort lessClusterName
        ((outerAbsorb statOK ((reparentClusters statOK roots).map some)).filterMap id)
    from rfl]
  rw [outerAbsorb_noop statOK _ (mapSome_pairs statOK _ hpwR1)]
  rw [filterMap_id_map_some]
  exact stableSort_of_sorted lessClusterName _ hsort

/-! ## C9 -/

/-- C9 theorem (confirmed): the run reports the single fatal condition
exactly when the crawl completes (does not abort on a propagated walk
or stat error) with zero manifest records; and a regular yaml file
whose read fails is silently skipped: the run over any entry sequence
containing it equals the run over the sequence without it, so a read
failure alone never produces the fatal signal and discovery elsewhere
proceeds. -/
theorem c9_fatal_iff_and_skip (fs : GoFS) (root : String) (fuel : Nat) :
    (∀ entries, runPipelineEntries fs root fuel entries = Outcome.fatal ↔
        ∃ cst, crawl fs root entries = some cst ∧ cst.kustomizations = []) ∧
    (∀ (pre post : List WalkEntry) (e : WalkEntry),
        e.werr = false →
        fs.statIsDir e.path = some false →
        (goToLower (goExt (goBase e.path)) = ".yaml" ∨
          goToLower (goExt (goBase e.path)) = ".yml") →
        fs.readDocs (goClean e.path) = none →
        runPipelineEntries fs root fuel (pre ++ e :: post) =
          runPipelineEntries fs root fuel (pre ++ post)) := by
  constructor
  · intro entries
    rw [runPipelineEntries]
    cases hc : crawl fs root entries with
    | none => simp [hc]
    | some cst =>
      by_cases hemp : cst.kustomizations.isEmpty
      · simp only [hemp, if_pos rfl]
        constructor
        · intro _
          exact ⟨cst, rfl, List.isEmpty_iff.mp hemp⟩
        · intro _
          rfl
      · rcases hL : linkAll fs root root fuel cst with ⟨st1, rd⟩
        simp only [hemp, Bool.false_eq_true, if_false, hL]
        constructor
        · intro hcon
          cases hcon
        · rintro ⟨cst2, hcst2, hnil⟩
          rw [Option.some.injEq] at hcst2
          subst hcst2
          rw [hnil] at hemp
          exact absurd rfl hemp
  · intro pre post e hw hs hext hread
    have hstep : ∀ acc, crawlStep fs root acc e = acc := by
      intro acc
      cases acc with
      | none => rfl
      | some st =>
        rw [crawlStep]
        simp only [hw, Bool.false_eq_true, if_false, hs]
        have hcond : (goToLower (goExt (goBase e.path)) = ".yaml" ||
            goToLower (goExt (goBase e.path)) = ".yml") = true := by
          rcases hext with h | h <;> simp [h]
        rw [if_pos hcond]
        rw [parseYamlFromFile, hread]
        simp
    have hcrawl : crawl fs root (pre ++ e :: post) = crawl fs root (pre ++ post) := by
      rw [crawl, crawl, List.foldl_append, List.foldl_append, List.foldl_cons, hstep]
    rw [runPipelineEntries, runPipelineEntries, hcrawl]

/-- C9 witness: the fatal equivalence on an empty crawl and the skip
equivalence on a concrete unreadable yaml entry. -/
theorem c9_fatal_iff_and_skip_witness :
    (runPipelineEntries fsC9 "/q" 1 [] = Outcome.fatal ↔
      ∃ cst, crawl fsC9 "/q" [] = some cst ∧ cst.kustomizations = []) ∧
    (entC9bad.werr = false ∧ fsC9.statIsDir entC9bad.path = some false ∧
      goToLower (goExt (goBase entC9bad.path)) = ".yaml" ∧
      fsC9.readDocs (goClean entC9bad.path) = none) ∧
    runPipelineEntries fsC9 "/q" 1 ([entC9good] ++ entC9bad :: []) =
      runPipelineEntries fsC9 "/q" 1 ([entC9good] ++ []) :=
  ⟨(c9_fatal_iff_and_skip fsC9 "/q" 1).1 [], ⟨rfl, rfl, rfl, rfl⟩,
    (c9_fatal_iff_and_skip fsC9 "/q" 1).2 [entC9good] [] entC9bad rfl rfl (Or.inl rfl) rfl⟩

/-- C4 witness: a path with a literal clusters segment, discharging the
candidate-nonempty hypothesis. -/
theorem c4_amended_witness :
    (checkClusterCandidates "" "prodclusters/flux-system").1 ≠ [] ∧
    checkClusterCandidates "" "prodclusters/flux-system" = (["clusters"], "prodclusters/") ∧
    (goContains (goTrimRightSlash "prodclusters/flux-system") "/." = false ∧
      goContains (goTrimRightSlash "prodclusters/flux-system") "bases/" = false ∧
      (∃ seg ∈ goSplitSlash
          (goTrimPrefixStr (goTrimRightSlash "prodclusters/flux-system") ("" ++ "/")),
        goEndsWith seg "clusters" = true ∨ goEndsWith seg "hub" = true) ∧
      (∀ n ∈ (checkClusterCandidates "" "prodclusters/flux-system").1,
        ∃ i a b,
          (goSplitSlash (goTrimPrefixStr (goTrimRightSlash "prodclusters/flux-system")
            ("" ++ "/"))).get? i = some a ∧
          (goSplitSlash (goTrimPrefixStr (goTrimRightSlash "prodclusters/flux-system")
            ("" ++ "/"))).get? (i + 1) = some b ∧
          b ≠ "" ∧
          ((commonNamespaces.contains b = false ∧ n = b ∧
              (goEndsWith a "clusters" = true ∨ goEndsWith a "hub" = true)) ∨
            (commonNamespaces.contains b = true ∧
              ((n = "hub" ∧ goEndsWith a "hub" = true) ∨
                (n = "clusters" ∧ goEndsWith a "clusters" = true))))) ∧
      (checkClusterCandidates "" "prodclusters/flux-system").2 =
        (scanSegs (goSplitSlash (goTrimPrefixStr (goTrimRightSlash "prodclusters/flux-system")
            ("" ++ "/")))).foldl
          (fun q m =>
            if commonNamespaces.contains m.2 = true ∧ goEndsWith q m.2 = true then
              String.mk (q.data.take (q.data.length - m.2.data.length))
            else q)
          (goTrimRightSlash "prodclusters/flux-system")) :=
  ⟨by decide, by decide, c4_amended "" "prodclusters/flux-system" (by decide)⟩

/-! ## C7: path absoluteness toolkit -/

/-- A string built on a leading separator starts with the separator. -/
theorem startsSlash_mk (l : List Char) : goStartsWith (String.mk ('/' :: l)) "/" = true := by
  simp [goStartsWith, List.isPrefixOf]

/-- A string starting with the separator has it as its head character. -/
theorem startsSlash_data (s : String) (h : goStartsWith s "/" = true) :
    ∃ t, s.data = '/' :: t := by
  unfold goStartsWith at h
  cases hs : s.data with
  | nil => rw [hs] at h; simp [List.isPrefixOf] at h
  | cons c t =>
    rw [hs] at h
    have hpre : "/".data <+: c :: t := List.isPrefixOf_iff_prefix.mp h
    have hc : '/' = c ∧ ([] : List Char) <+: t := List.cons_prefix_cons.mp hpre
    exact ⟨t, by rw [← hc.1]⟩

/-- Appending on the right preserves a leading separator. -/
theorem startsSlash_append (a b : String) (h : goStartsWith a "/" = true) :
    goStartsWith (a ++ b) "/" = true := by
  obtain ⟨t, ht⟩ := startsSlash_data a h
  unfold goStartsWith
  rw [String.data_append, ht]
  simp [List.isPrefixOf]

/-- filepath.Clean keeps absolute paths absolute. -/
theorem goClean_abs (p : String) (h : goStartsWith p "/" = true) :
    goStartsWith (goClean p) "/" = true := by
  obtain ⟨t, ht⟩ := startsSlash_data p h
  have hne : p ≠ "" := by
    intro he
    rw [he] at ht
    cases ht
  unfold goClean
  rw [if_neg hne]
  simp only [ht, List.head?_cons]
  rw [if_pos trivial]
  exact startsSlash_mk _

/-- filepath.Join of an absolute first element is absolute. -/
theorem goJoin_abs (a b : String) (h : goStartsWith a "/" = true) :
    goStartsWith (goJoin a b) "/" = true := by
  obtain ⟨t, ht⟩ := startsSlash_data a h
  have hne : a ≠ "" := by
    intro he
    rw [he] at ht
    cases ht
  unfold goJoin
  rw [if_neg (by simp [hne])]
  rw [if_neg hne]
  by_cases hb : b = ""
  · rw [if_pos hb]
    exact goClean_abs a h
  · rw [if_neg hb]
    exact goClean_abs _ (startsSlash_append _ _ (startsSlash_append _ _ h))

/-- filepath.Abs under an absolute working directory is absolute. -/
theorem goAbs_abs (cwd p : String) (h : goStartsWith cwd "/" = true) :
    goStartsWith (goAbs cwd p) "/" = true := by
  unfold goAbs
  by_cases hp : goIsAbs p = true
  · rw [if_pos hp]
    exact goClean_abs p hp
  · rw [if_neg hp]
    exact goJoin_abs cwd p h

/-- A root-relative path never equals an absolute path. -/
theorem rel_ne_abs {x y : String} (hx : goStartsWith x "/" = false)
    (hy : goStartsWith y "/" = true) : x ≠ y := by
  intro h
  rw [h, hy] at hx
  cases hx

/-- strings.TrimPrefix recovers the remainder of a literal append. -/
theorem goTrimPrefixStr_append (a b : String) : goTrimPrefixStr (a ++ b) a = b := by
  unfold goTrimPrefixStr
  rw [if_pos]
  · rw [String.data_append, List.drop_left]
  · rw [String.data_append]
    exact List.isPrefixOf_iff_prefix.mpr (List.prefix_append _ _)

/-- Setting a slot to the value it already holds is the identity. -/
theorem setSelf {α : Type} : ∀ (l : List α) (i : Nat) (a : α),
    l.get? i = some a → l.set i a = l := by
  intro l
  induction l with
  | nil => intro i a h; cases h
  | cons x xs ih =>
    intro i a h
    cases i with
    | zero => cases h; rfl
    | succ n =>
      simp only [List.get?] at h
      simp only [List.set]
      rw [ih n a h]

/-- A fold whose every step fixes the given start stays at the start. -/
theorem foldlFix {α β : Type} (f : α → β → α) (a : α) :
    ∀ l : List β, (∀ x ∈ l, f a x = a) → l.foldl f a = a := by
  intro l
  induction l with
  | nil => intro _; rfl
  | cons x xs ih =>
    intro h
    rw [List.foldl_cons, h x (List.mem_cons_self x xs)]
    exact ih (fun y hy => h y (List.mem_cons_of_mem x hy))

/-- A fold whose every step preserves an observation preserves it. -/
theorem foldlPres {α β γ : Type} (g : α → γ) (f : α → β → α) :
    ∀ (l : List β) (a : α), (∀ (b : α) (x : β), x ∈ l → g (f b x) = g b) →
      g (l.foldl f a) = g a := by
  intro l
  induction l with
  | nil => intro a _; rfl
  | cons x xs ih =>
    intro a h
    rw [List.foldl_cons]
    rw [ih (f a x) (fun b y hy => h b y (List.mem_cons_of_mem x hy))]
    exact h a x (List.mem_cons_self x xs)

/-- Updating a manifest slot without touching its stored path or its
children leaves the link view unchanged. -/
theorem updateKust_view (st : MState) (i : Nat) (f : shortApi → shortApi)
    (hf : ∀ k, (f k).filepath = k.filepath ∧ (f k).children = k.children) :
    linkView (updateKust st i f) = linkView st := by
  unfold updateKust
  cases hv : st.kustomizations.get? i with
  | none => rfl
  | some k =>
    show linkView { st with kustomizations := st.kustomizations.set i (f k) } = linkView st
    unfold linkView
    show (st.kustomizations.set i (f k)).map _ = _
    rw [List.map_set]
    have hfk : ((f k).filepath, (f k).children) = (k.filepath, k.children) := by
      rw [(hf k).1, (hf k).2]
    rw [hfk]
    apply setSelf
    rw [List.get?_map, hv]
    rfl

/-- Updating a source slot leaves the link view unchanged. -/
theorem updateSrc_view (st : MState) (i : Nat) (f : shortSource → shortSource) :
    linkView (updateSrc st i f) = linkView st := by
  unfold updateSrc
  cases st.sources.get? i <;> rfl

/-- Path relativity is a function of the link view. -/
theorem relPaths_of_view {st st2 : MState} (h : linkView st2 = linkView st)
    (hrel : relPaths st) : relPaths st2 := by
  intro k hk
  have hm : (k.filepath, k.children) ∈ linkView st2 :=
    List.mem_map_of_mem (fun k => (k.filepath, k.children)) hk
  rw [h] at hm
  obtain ⟨k0, hk0, he⟩ := List.mem_map.mp hm
  have : k0.filepath = k.filepath := congrArg Prod.fst he
  rw [← this]
  exact hrel k0 hk0

/-- The children reset of a linking iteration acts on the link view as
resetAt. -/
theorem updateKust_reset_view (st : MState) (i : Nat) :
    linkView (updateKust st i (fun k => { k with children := [] })) =
      resetAt i (linkView st) := by
  unfold updateKust resetAt
  cases hv : st.kustomizations.get? i with
  | none =>
    have hv2 : (linkView st).get? i = none := by
      unfold linkView
      rw [List.get?_map, hv]
      rfl
    rw [hv2]
  | some k =>
    have hv2 : (linkView st).get? i = some (k.filepath, k.children) := by
      unfold linkView
      rw [List.get?_map, hv]
      rfl
    rw [hv2]
    show linkView { st with kustomizations := _ } = _
    unfold linkView
    show (st.kustomizations.set i _).map _ = _
    rw [List.map_set]

/-- The children reset preserves path relativity. -/
theorem relPaths_reset (st : MState) (i : Nat) (hrel : relPaths st) :
    relPaths (updateKust st i (fun k => { k with children := [] })) := by
  unfold updateKust
  cases hv : st.kustomizations.get? i with
  | none => exact hrel
  | some k =>
    intro k2 hk2
    rcases List.mem_or_eq_of_mem_set hk2 with hin | he
    · exact hrel k2 hin
    · rw [he]
      exact hrel k (List.get?_mem hv)

/-- When every stored path is relative and the resolved resource path
is absolute, the binding loops of a followKustomization iteration
change no stored path and no children list: the manifest matching loop
never fires, and the source matching loop touches only source slots
and the source field. -/
theorem fkBindAt_view (index : Nat) (rp : String) (st : MState)
    (hrel : relPaths st) (habs : goStartsWith rp "/" = true) :
    linkView (fkBindAt index rp st) = linkView st := by
  unfold fkBindAt
  have h1 : (List.range st.kustomizations.length).foldl
      (fun s j =>
        match s.kustomizations.get? j with
        | some v =>
          if v.filepath = rp then
            let s2 := updateKust s j (fun k => { k with parent := some index })
            updateKust s2 index (fun k => { k with children := k.children ++ [j] })
          else s
        | none => s)
      st = st := by
    apply foldlFix
    intro j _
    cases hv : st.kustomizations.get? j with
    | none => simp only [hv]
    | some v =>
      simp only [hv]
      rw [if_neg (rel_ne_abs (hrel v (List.get?_mem hv)) habs)]
  rw [h1]
  apply foldlPres
  intro b t _
  cases hv : b.sources.get? t with
  | none => simp only [hv]
  | some v =>
    simp only [hv]
    by_cases hp : v.filepath = rp
    · rw [if_pos hp]
      have hf : ∀ k : shortApi,
          (({ k with source := some t } : shortApi)).filepath = k.filepath ∧
            (({ k with source := some t } : shortApi)).children = k.children :=
        fun k => ⟨rfl, rfl⟩
      exact (updateKust_view _ _ _ hf).trans (updateSrc_view _ _ _)
    · rw [if_neg hp]

/-- Setting the kustomize field leaves the link view unchanged. -/
theorem updateKust_kustomize_view (st : MState) (i : Nat) (x : String) :
    linkView (updateKust st i (fun k => { k with kustomize := x })) = linkView st :=
  updateKust_view _ _ _ (fun k => ⟨rfl, rfl⟩)

/-- Setting the classification leaves the link view unchanged. -/
theorem updateKust_ftype_view (st : MState) (i : Nat) (x : FluxFileType) :
    linkView (updateKust st i (fun k => { k with ftype := x })) = linkView st :=
  updateKust_view _ _ _ (fun k => ⟨rfl, rfl⟩)

/-- Setting the source slot pointer leaves the link view unchanged. -/
theorem updateKust_source_view (st : MState) (i : Nat) (x : Option Nat) :
    linkView (updateKust st i (fun k => { k with source := x })) = linkView st :=
  updateKust_view _ _ _ (fun k => ⟨rfl, rfl⟩)

/-- The resource loop of a followKustomization call preserves the link
view whenever the working directory is absolute, all stored manifest
paths are relative, and the recursive descent preserves the view. -/
theorem fkRes_view (fs : GoFS) (cwd : String) (index : Nat) (path : String)
    (recurse : String → MState → MState)
    (hrec : ∀ rp s, relPaths s → linkView (recurse rp s) = linkView s)
    (hcwd : goStartsWith cwd "/" = true) :
    ∀ (rs : List String) (st : MState), relPaths st →
      linkView (fkRes fs cwd index path recurse rs st).1 = linkView st := by
  intro rs
  induction rs with
  | nil => intro st _; rfl
  | cons r rs ih =>
    intro st hst
    have habs : goStartsWith (goAbs cwd (goJoin path r)) "/" = true := goAbs_abs _ _ hcwd
    simp only [fkRes]
    split
    · exact hrec _ _ hst
    · rw [ih _ (relPaths_of_view (fkBindAt_view index _ st hst habs) hst)]
      exact fkBindAt_view index _ st hst habs

/-- The document loop of a followKustomization call preserves the link
view under the same assumptions. -/
theorem fkDocs_view (fs : GoFS) (cwd : String) (index : Nat) (path : String)
    (recurse : String → MState → MState)
    (hrec : ∀ rp s, relPaths s → linkView (recurse rp s) = linkView s)
    (hcwd : goStartsWith cwd "/" = true) :
    ∀ (docs : List SigsDoc) (st : MState), relPaths st →
      linkView (fkDocs fs cwd index path recurse docs st) = linkView st := by
  intro docs
  induction docs with
  | nil => intro st _; rfl
  | cons d rest ih =>
    intro st hst
    cases d with
    | malformed => rfl
    | ok k =>
      simp only [fkDocs]
      cases hres : fkRes fs cwd index path recurse k.resources st with
      | mk st2 b =>
        have hv : linkView st2 = linkView st := by
          have h2 := fkRes_view fs cwd index path recurse hrec hcwd k.resources st hst
          rw [hres] at h2
          exact h2
        cases b with
        | true => exact hv
        | false => rw [ih st2 (relPaths_of_view hv hst)]; exact hv

/-- A whole followKustomization descent preserves the link view, for
every recursion budget: the manifest matching loop can never fire when
stored paths are relative and resolved paths absolute. -/
theorem followKustomization_view (fs : GoFS) (cwd : String)
    (hcwd : goStartsWith cwd "/" = true) :
    ∀ (fuel index : Nat) (path : String) (st : MState), relPaths st →
      linkView (followKustomization fs cwd fuel index path st) = linkView st := by
  intro fuel
  induction fuel with
  | zero => intro index path st _; rfl
  | succ fuel ih =>
    intro index path st hst
    rw [followKustomization]
    cases hd : fs.readSigsDocs (goClean path) with
    | none => rfl
    | some docs =>
      exact fkDocs_view fs cwd index path _ (fun rp s hs => ih index rp s hs) hcwd docs st hst

/-- One pathFn callback of followFluxKustomization preserves the link
view: the manifest path match cannot fire against an absolute walk
path, and the source loop touches only source slots. -/
theorem pathFnStep_view (fs : GoFS) (cwd root : String) (fuel index : Nat)
    (hcwd : goStartsWith cwd "/" = true)
    (e : WalkEntry) (st : MState) (b : Bool)
    (hpath : goStartsWith e.path "/" = true) (hrel : relPaths st) :
    linkView (pathFnStep fs cwd root fuel index (st, b) e).1 = linkView st := by
  cases b with
  | true => rfl
  | false =>
    simp only [pathFnStep]
    by_cases hw : e.werr = true
    · rw [if_pos hw]
    · rw [if_neg hw]
      by_cases hk : chopExt (goBase e.path) = "kustomization"
      · rw [if_pos hk]
        exact followKustomization_view fs cwd hcwd fuel index e.path st hrel
      · rw [if_neg hk]
        by_cases hd : e.dtype = DType.regular
        · rw [if_pos hd]
          have hidx : st.kustomizations.findIdx? (fun v => v.filepath = e.path) = none := by
            apply List.findIdx?_eq_none_iff.mpr
            intro v hv
            show decide (v.filepath = e.path) = false
            exact decide_eq_false (rel_ne_abs (hrel v hv) hpath)
          rw [hidx]
          apply foldlPres (g := linkView)
          intro s t _
          cases hsv : s.sources.get? t with
          | none => simp only [hsv]
          | some v =>
            simp only [hsv]
            by_cases hp : v.filepath = e.path
            · rw [if_pos hp, updateSrc_view]
            · rw [if_neg hp]
        · rw [if_neg hd]

/-- The whole pathFn walk fold of followFluxKustomization preserves the
link view when every walked path is absolute. -/
theorem pathFnFold_view (fs : GoFS) (cwd root : String) (fuel index : Nat)
    (hcwd : goStartsWith cwd "/" = true) :
    ∀ (es : List WalkEntry), (∀ e ∈ es, goStartsWith e.path "/" = true) →
      ∀ (st : MState) (b : Bool), relPaths st →
        linkView ((es.foldl (pathFnStep fs cwd root fuel index) (st, b)).1) = linkView st := by
  intro es
  induction es with
  | nil => intro _ st b _; rfl
  | cons e rest ih =>
    intro hes st b hst
    rw [List.foldl_cons]
    cases hstep : pathFnStep fs cwd root fuel index (st, b) e with
    | mk st2 b2 =>
      have hv : linkView st2 = linkView st := by
        have h2 := pathFnStep_view fs cwd root fuel index hcwd e st b
          (hes e (List.mem_cons_self _ _)) hst
        rw [hstep] at h2
        exact h2
      rw [ih (fun x hx => hes x (List.mem_cons_of_mem _ hx)) st2 b2 (relPaths_of_view hv hst)]
      exact hv

/-- Binding a source preserves the link view: only source slots and the
manifest source pointer are written. -/
theorem setSource_view (st : MState) (index : Nat) :
    linkView (setSource st index) = linkView st := by
  unfold setSource
  cases st.kustomizations.get? index with
  | none => rfl
  | some k0 =>
    dsimp only
    cases k0.spec.source with
    | none => rfl
    | some _ =>
      apply foldlPres (g := linkView)
      intro s t _
      split
      · split
        · split
          · split
            · rfl
            · exact (updateKust_source_view _ _ _).trans (updateSrc_view _ _ _)
          · rfl
        · rfl
      · rfl

/-- A whole followFluxKustomization call preserves the link view. -/
theorem followFluxKustomization_view (fs : GoFS) (cwd root : String) (fuel index : Nat)
    (hcwd : goStartsWith cwd "/" = true)
    (habs : ∀ r e, e ∈ fs.walk r → goStartsWith e.path "/" = true)
    (st : MState) (hrel : relPaths st) :
    linkView (followFluxKustomization fs cwd root fuel index st).1 = linkView st := by
  unfold followFluxKustomization
  cases hk : st.kustomizations.get? index with
  | none => rfl
  | some k0 =>
    dsimp only
    have hfa : ∀ k : shortApi,
        (({ k with kustomize := (GetKustomization fs (linkPath root k0)).1 } : shortApi)).filepath
            = k.filepath ∧
          (({ k with kustomize := (GetKustomization fs (linkPath root k0)).1 } : shortApi)).children
            = k.children :=
      fun k => ⟨rfl, rfl⟩
    have hfb : ∀ k : shortApi,
        (({ k with ftype := (classifyFtype (GetKustomization fs (linkPath root k0)).2
              (goBase (linkPath root k0)) k.ftype) } : shortApi)).filepath = k.filepath ∧
          (({ k with ftype := (classifyFtype (GetKustomization fs (linkPath root k0)).2
              (goBase (linkPath root k0)) k.ftype) } : shortApi)).children = k.children :=
      fun k => ⟨rfl, rfl⟩
    have hv2 : linkView (updateKust
        (updateKust st index
          (fun k => { k with kustomize := (GetKustomization fs (linkPath root k0)).1 }))
        index
        (fun k => { k with ftype := (classifyFtype (GetKustomization fs (linkPath root k0)).2
          (goBase (linkPath root k0)) k.ftype) })) = linkView st :=
      (updateKust_view _ _ _ hfb).trans (updateKust_view _ _ _ hfa)
    cases hp : k0.spec.path with
    | none => exact hv2
    | some sp =>
      exact (pathFnFold_view fs cwd root fuel index hcwd _ (fun e he => habs _ e he) _ false
        (relPaths_of_view hv2 hrel)).trans hv2

/-- One linking iteration acts on the link view exactly as the children
reset of its own slot: everything after the reset preserves the view. -/
theorem linkStep_view (fs : GoFS) (cwd root : String) (fuel : Nat)
    (hcwd : goStartsWith cwd "/" = true)
    (habs : ∀ r e, e ∈ fs.walk r → goStartsWith e.path "/" = true)
    (acc : MState × Bool) (i : Nat) (hrel : relPaths acc.1) :
    linkView (linkStep fs cwd root fuel acc i).1 = resetAt i (linkView acc.1) := by
  unfold linkStep
  dsimp only
  have h0 : linkView (updateKust acc.1 i (fun k => { k with children := [] })) =
      resetAt i (linkView acc.1) := updateKust_reset_view acc.1 i
  have hrel0 : relPaths (updateKust acc.1 i (fun k => { k with children := [] })) :=
    relPaths_reset acc.1 i hrel
  cases hff : followFluxKustomization fs cwd root fuel i
      (updateKust acc.1 i (fun k => { k with children := [] })) with
  | mk st1 err =>
    have h1 : linkView st1 = resetAt i (linkView acc.1) := by
      have h2 := followFluxKustomization_view fs cwd root fuel i hcwd habs _ hrel0
      rw [hff] at h2
      exact h2.trans h0
    exact (setSource_view _ i).trans h1

/-- The linking loop acts on the link view exactly as the fold of the
children resets of the visited slots. -/
theorem linkFold_view (fs : GoFS) (cwd root : String) (fuel : Nat)
    (hcwd : goStartsWith cwd "/" = true)
    (habs : ∀ r e, e ∈ fs.walk r → goStartsWith e.path "/" = true) :
    ∀ (l : List Nat) (st : MState) (b : Bool), relPaths st →
      linkView ((l.foldl (linkStep fs cwd root fuel) (st, b)).1) =
        l.foldl (fun v i => resetAt i v) (linkView st) := by
  intro l
  induction l with
  | nil => intro st b _; rfl
  | cons i rest ih =>
    intro st b hst
    rw [List.foldl_cons, List.foldl_cons]
    cases hstep : linkStep fs cwd root fuel (st, b) i with
    | mk st2 b2 =>
      have hv : linkView st2 = resetAt i (linkView st) := by
        have h2 := linkStep_view fs cwd root fuel hcwd habs (st, b) i hst
        rw [hstep] at h2
        exact h2
      have hrel2 : relPaths st2 :=
        relPaths_of_view (hv.trans (updateKust_reset_view st i).symm) (relPaths_reset st i hst)
      rw [ih st2 b2 hrel2, hv]

/-- resetAt preserves the view length. -/
theorem resetAt_length (i : Nat) (v : List (String × List Nat)) :
    (resetAt i v).length = v.length := by
  unfold resetAt
  cases v.get? i with
  | none => rfl
  | some p => rw [List.length_set]

/-- The reset fold preserves the view length. -/
theorem resetFold_length (l : List Nat) :
    ∀ v : List (String × List Nat), (l.foldl (fun v i => resetAt i v) v).length = v.length := by
  induction l with
  | nil => intro _; rfl
  | cons i rest ih =>
    intro v
    rw [List.foldl_cons, ih, resetAt_length]

/-- Once a slot's children component is empty, any reset keeps it so. -/
theorem resetAt_keep (i j : Nat) (v : List (String × List Nat))
    (h : (v.get? j).map Prod.snd = some []) :
    ((resetAt i v).get? j).map Prod.snd = some [] := by
  unfold resetAt
  cases hv : v.get? i with
  | none => exact h
  | some p =>
    by_cases hij : i = j
    · subst hij
      rw [List.get?_set_eq_of_lt _ (get?_some_lt v i p hv)]
      rfl
    · rw [List.get?_set_ne _ _ hij]
      exact h

/-- Resetting a slot in range empties its children component. -/
theorem resetAt_hit (j : Nat) (v : List (String × List Nat)) (h : j < v.length) :
    ((resetAt j v).get? j).map Prod.snd = some [] := by
  unfold resetAt
  cases hv : v.get? j with
  | none =>
    have := List.get?_eq_none.mp hv
    omega
  | some p =>
    rw [List.get?_set_eq_of_lt _ h]
    rfl

/-- The reset fold keeps emptied children components empty. -/
theorem resetFold_keep (l : List Nat) :
    ∀ (v : List (String × List Nat)) (j : Nat), (v.get? j).map Prod.snd = some [] →
      ((l.foldl (fun v i => resetAt i v) v).get? j).map Prod.snd = some [] := by
  induction l with
  | nil => intro v j h; exact h
  | cons i rest ih =>
    intro v j h
    rw [List.foldl_cons]
    exact ih _ j (resetAt_keep i j v h)

/-- After folding resets over a list containing an in-range slot, that
slot's children component is empty. -/
theorem resetFold_mem (l : List Nat) :
    ∀ (v : List (String × List Nat)) (j : Nat), j ∈ l → j < v.length →
      ((l.foldl (fun v i => resetAt i v) v).get? j).map Prod.snd = some [] := by
  induction l with
  | nil => intro v j h _; cases h
  | cons i rest ih =>
    intro v j hj hlen
    rw [List.foldl_cons]
    by_cases hr : j ∈ rest
    · exact ih _ j hr (by rw [resetAt_length]; exact hlen)
    · have hji : j = i := by
        rcases List.mem_cons.mp hj with he | hm
        · exact he
        · exact absurd hm hr
      subst hji
      exact resetFold_keep rest _ j (resetAt_hit j v hlen)

/-- Every manifest record parseYaml produces stores the walked path
with the root prefix trimmed. -/
theorem parseYaml_fpath (root path : String) :
    ∀ (docs : List YDoc) (k : shortApi), k ∈ (parseYaml docs root path).1 →
      k.filepath = goTrimPrefixStr path (root ++ "/") := by
  intro docs
  induction docs with
  | nil => intro k h; cases h
  | cons d rest ih =>
    intro k h
    cases d with
    | malformed => cases h
    | ok dd =>
      simp only [parseYaml] at h
      cases hpy : parseYaml rest root path with
      | mk ks ss =>
        rw [hpy] at h
        have ihks : ∀ k2 ∈ ks, k2.filepath = goTrimPrefixStr path (root ++ "/") := by
          intro k2 hk2
          exact ih k2 (by rw [hpy]; exact hk2)
        by_cases h1 : goSplitFirst dd.apiVersion = kustomizationApi
        · rw [if_pos h1] at h
          rcases List.mem_cons.mp h with he | hm
          · rw [he]; rfl
          · exact ihks k hm
        · rw [if_neg h1] at h
          by_cases h2 : goSplitFirst dd.apiVersion = sourceApi
          · rw [if_pos h2] at h
            exact ihks k h
          · rw [if_neg h2] at h
            exact ihks k h

/-- One crawl callback preserves path relativity of the manifest store,
as long as the walked file path trims to a relative remainder. -/
theorem crawlStep_rel (fs : GoFS) (root : String) (acc : MState) (e : WalkEntry) (st : MState)
    (hrel : relPaths acc)
    (hdec : fs.statIsDir e.path = some false →
      goStartsWith (goTrimPrefixStr e.path (root ++ "/")) "/" = false)
    (h : crawlStep fs root (some acc) e = some st) : relPaths st := by
  unfold crawlStep at h
  dsimp only at h
  by_cases hw : e.werr = true
  · rw [if_pos hw] at h; cases h
  · rw [if_neg hw] at h
    cases hs : fs.statIsDir e.path with
    | none => rw [hs] at h; cases h
    | some bb =>
      rw [hs] at h
      cases bb with
      | true =>
        obtain rfl : _ = st := Option.some.inj h
        intro k hk
        exact hrel k hk
      | false =>
        dsimp only at h
        split at h
        · cases hp : parseYamlFromFile fs root e.path with
          | mk ks ss =>
            rw [hp] at h
            obtain rfl : _ = st := Option.some.inj h
            intro k hk
            rcases List.mem_append.mp hk with hin | hnew
            · exact hrel k hin
            · have hfk : k.filepath = goTrimPrefixStr e.path (root ++ "/") := by
                unfold parseYamlFromFile at hp
                cases hd : fs.readDocs (goClean e.path) with
                | none =>
                  rw [hd] at hp
                  have h1 : ([] : List shortApi) = ks := congrArg Prod.fst hp
                  rw [← h1] at hnew
                  cases hnew
                | some docs =>
                  rw [hd] at hp
                  have hp2 : parseYaml docs root e.path = (ks, ss) := hp
                  apply parseYaml_fpath root e.path docs
                  rw [hp2]
                  exact hnew
              rw [hfk]
              exact hdec hs
        · obtain rfl : acc = st := Option.some.inj h
          exact hrel

/-- A crawl aborted by a propagated error never recovers. -/
theorem crawlNone (fs : GoFS) (root : String) :
    ∀ es : List WalkEntry, es.foldl (crawlStep fs root) none = none := by
  intro es
  induction es with
  | nil => rfl
  | cons e rest ih =>
    rw [List.foldl_cons]
    exact ih

/-- A completed crawl leaves every stored manifest path relative. -/
theorem crawlFold_rel (fs : GoFS) (root : String) :
    ∀ (es : List WalkEntry) (acc st : MState), relPaths acc →
      (∀ e ∈ es, fs.statIsDir e.path = some false →
        goStartsWith (goTrimPrefixStr e.path (root ++ "/")) "/" = false) →
      es.foldl (crawlStep fs root) (some acc) = some st → relPaths st := by
  intro es
  induction es with
  | nil =>
    intro acc st hrel _ h
    obtain rfl : acc = st := Option.some.inj h
    exact hrel
  | cons e rest ih =>
    intro acc st hrel hdec h
    rw [List.foldl_cons] at h
    cases hcs : crawlStep fs root (some acc) e with
    | none =>
      rw [hcs, crawlNone] at h
      cases h
    | some acc2 =>
      rw [hcs] at h
      exact ih acc2 st
        (crawlStep_rel fs root acc e acc2 hrel (hdec e (List.mem_cons_self _ _)) hcs)
        (fun x hx => hdec x (List.mem_cons_of_mem _ hx)) h

/-- C7: for every repository tree without directory cycles — modelled
as a walk that reports absolute entry paths, with every file under the
absolute root being a proper descendant of it — after the full linking
pass the children relation over manifests is acyclic: no manifest is
reachable from itself through children edges.  The proof shows the
stronger invariant the code actually guarantees: every children list
of a ready outcome is empty, because stored manifest paths are kept
root-relative while every candidate the binding loops compare against
is absolute, so no binding ever fires. -/
theorem c7_children_acyclic (fs : GoFS) (root : String) (fuel : Nat) (st : MState) (ok : Bool)
    (hroot : goStartsWith root "/" = true)
    (habs : ∀ r e, e ∈ fs.walk r → goStartsWith e.path "/" = true)
    (hdec : ∀ e ∈ fs.walk root, fs.statIsDir e.path = some false →
      ∃ rest, e.path = root ++ "/" ++ rest ∧ goStartsWith rest "/" = false)
    (hrun : runPipeline fs root fuel = Outcome.ready st ok) :
    (∀ k ∈ st.kustomizations, k.children = []) ∧
    ∀ i, ¬ Relation.TransGen (childEdge st) i i := by
  unfold runPipeline runPipelineEntries at hrun
  cases hc : crawl fs root (fs.walk root) with
  | none => rw [hc] at hrun; cases hrun
  | some cst =>
    rw [hc] at hrun
    dsimp only at hrun
    by_cases he : cst.kustomizations.isEmpty = true
    · rw [if_pos he] at hrun; cases hrun
    · rw [if_neg he] at hrun
      have hrelc : relPaths cst := by
        apply crawlFold_rel fs root (fs.walk root) {} cst
        · intro k hk
          cases hk
        · intro e hee hstat
          obtain ⟨rest, hre, hrs⟩ := hdec e hee hstat
          rw [hre, goTrimPrefixStr_append]
          exact hrs
        · exact hc
      cases hl : linkAll fs root root fuel cst with
      | mk st1 rdy =>
        rw [hl] at hrun
        dsimp only at hrun
        injection hrun with hst hok
        have hview : linkView st1 =
            (List.range cst.kustomizations.length).foldl (fun v i => resetAt i v)
              (linkView cst) := by
          have h3 := linkFold_view fs root root fuel hroot habs
            (List.range cst.kustomizations.length) cst true hrelc
          have hl2 : (List.range cst.kustomizations.length).foldl
              (linkStep fs root root fuel) (cst, true) = (st1, rdy) := hl
          rw [hl2] at h3
          exact h3
        have hch : ∀ k ∈ st1.kustomizations, k.children = [] := by
          intro k hk
          obtain ⟨j, hj⟩ := List.mem_iff_get?.mp hk
          have hjlt : j < st1.kustomizations.length := get?_some_lt _ _ _ hj
          have hlen1 : (linkView st1).length = st1.kustomizations.length := by
            unfold linkView
            rw [List.length_map]
          have hlenc : (linkView st1).length = cst.kustomizations.length := by
            rw [hview, resetFold_length]
            unfold linkView
            rw [List.length_map]
          have hjc : j < cst.kustomizations.length := by omega
          have hv1 : (linkView st1).get? j = some (k.filepath, k.children) := by
            unfold linkView
            rw [List.get?_map, hj]
            rfl
          have hsnd := resetFold_mem (List.range cst.kustomizations.length) (linkView cst) j
            (List.mem_range.mpr hjc)
            (by unfold linkView; rw [List.length_map]; exact hjc)
          rw [← hview, hv1] at hsnd
          exact Option.some.inj hsnd
        have hst3 : st.kustomizations = stableSort lessKust st1.kustomizations := by
          rw [← hst]
        have hfin : ∀ k ∈ st.kustomizations, k.children = [] := by
          intro k hk
          rw [hst3] at hk
          exact hch k ((stableSort_perm lessKust st1.kustomizations).mem_iff.mp hk)
        refine ⟨hfin, ?_⟩
        intro i hcyc
        have hnoe : ∀ a b : Nat, ¬ childEdge st a b := by
          rintro a b ⟨k, hk, hb⟩
          have hz := hfin k (List.get?_mem hk)
          rw [hz] at hb
          cases hb
        cases hcyc with
        | single h => exact hnoe _ _ h
        | tail _ h => exact hnoe _ _ h

/-- Witness for C7 on the end-to-end example repository: the hypotheses
hold of fsC1 and the ready outcome has empty children lists and an
acyclic (indeed empty) children relation. -/
theorem c7_children_acyclic_witness :
    (∀ k ∈ (readyState (runPipeline fsC1 "/r" 2)).kustomizations, k.children = []) ∧
    ∀ i, ¬ Relation.TransGen (childEdge (readyState (runPipeline fsC1 "/r" 2))) i i := by
  apply c7_children_acyclic fsC1 "/r" 2 (readyState (runPipeline fsC1 "/r" 2)) true
  · decide
  · intro r e hee
    dsimp only [fsC1] at hee
    by_cases h1 : r = "/r"
    · rw [if_pos h1] at hee
      fin_cases hee <;> decide
    · rw [if_neg h1] at hee
      by_cases h2 : r = "/r/apps"
      · rw [if_pos h2] at hee
        fin_cases hee <;> decide
      · rw [if_neg h2] at hee
        cases hee
  · intro e hee hstat
    have hw : fsC1.walk "/r" =
        [{ path := "/r", dtype := DType.dir },
         { path := "/r/c", dtype := DType.dir },
         { path := "/r/c/apps.yaml", dtype := DType.regular },
         { path := "/r/apps", dtype := DType.dir },
         { path := "/r/apps/app.yaml", dtype := DType.regular },
         { path := "/r/apps/kustomization.yaml", dtype := DType.regular }] := by rfl
    rw [hw] at hee
    fin_cases hee
    · exact absurd hstat (by decide)
    · exact absurd hstat (by decide)
    · exact ⟨"c/apps.yaml", by decide⟩
    · exact absurd hstat (by decide)
    · exact ⟨"apps/app.yaml", by decide⟩
    · exact ⟨"apps/kustomization.yaml", by decide⟩
  · rfl

end Delorian
